import Mathlib

/-!
# Verification of the share-based tool scheduler (536-HW1)

Shallow embedding of the C sources:
* `heap.c` (`hw1_submission/hw1/heap.c`): a binary min-heap over a global
  node arena `GLB` with an identity→position back-map (`heap_index`).
* `hw1.c` (`code/hw1.c`): the scheduler state, placement/preemption policy,
  tool-runner tick, and event logging.
* `hw1.c` (`hw1_submission/test_extract/hw1/hw1.c`): the divergent variant
  of `handle_request` / `assign_tool_to_customer`.

Machine doubles are modelled as exact rationals (`ℚ`); the C arithmetic on
shares is additions of integer millisecond deltas and one division, so the
order of updates - which is what the statements below are about - is
captured exactly.  C `long long` / `int` timestamps are modelled as `ℤ`.
A C truncating cast `(int)x` on a `double` is `truncQ`.  Clock reads inside
a single mutex-protected critical section are modelled as one instant
`now : ℤ` passed explicitly.
-/

set_option linter.unusedVariables false

/-- `MAX_NODES` in heap.c = `MAX_CUSTOMERS` in hw1.c. -/
def MAX_NODES : Nat := 1024

/-- The heap state: `key`/`pos` are the two fields of the `GLB` node arena
(`pos n = -1` is the C sentinel `NIL`, "not in heap"); `arr` is
`HEAP_ARRAY` (entries written by the code are always valid node indices,
so it is carried as `Nat → Nat`); `size` is `*heap_size_ptr`. -/
structure Heap where
  key : Nat → ℚ
  pos : Nat → Int
  arr : Nat → Nat
  size : Nat

/-- heap.c `heap_parent`: `(i - 1) / 2` (C truncating division agrees with
`Nat` subtraction/division on every argument the code uses). -/
def heap_parent (i : Nat) : Nat := (i - 1) / 2

/-- heap.c `heap_left`. -/
def heap_left (i : Nat) : Nat := 2 * i + 1

/-- heap.c `heap_right`. -/
def heap_right (i : Nat) : Nat := 2 * i + 2

/-- heap.c `heap_swap`: swaps `HEAP_ARRAY[i]`, `HEAP_ARRAY[j]` and updates
the two back-pointers.  The update order of the C code (write at `node_i`,
then at `node_j`) is preserved: the later write wins on collision. -/
def heap_swap (h : Heap) (i j : Nat) : Heap :=
  let node_i := h.arr i
  let node_j := h.arr j
  { h with
    arr := fun x => if x = j then node_i else if x = i then node_j else h.arr x
    pos := fun n => if n = node_j then (i : Int) else if n = node_i then (j : Int) else h.pos n }

/-- The index of the smallest among node `i` and its two children, as
computed by the two successive comparisons in heap.c `min_heapify`. -/
def heapSmallest (h : Heap) (i : Nat) : Nat :=
  let s1 := if heap_left i < h.size ∧ h.key (h.arr (heap_left i)) < h.key (h.arr i)
            then heap_left i else i
  if heap_right i < h.size ∧ h.key (h.arr (heap_right i)) < h.key (h.arr s1)
  then heap_right i else s1

theorem heapSmallest_cases (h : Heap) (i : Nat) :
    heapSmallest h i = i ∨ (i < heapSmallest h i ∧ heapSmallest h i < h.size) := by
  unfold heapSmallest
  by_cases h2 : heap_right i < h.size ∧
      h.key (h.arr (heap_right i)) < h.key (h.arr
        (if heap_left i < h.size ∧ h.key (h.arr (heap_left i)) < h.key (h.arr i)
         then heap_left i else i))
  · right
    rw [if_pos h2]
    exact ⟨Nat.lt_of_lt_of_le (Nat.lt_succ_self _) (by simp [heap_left, heap_right]; omega), h2.1⟩
  · rw [if_neg h2]
    by_cases h1 : heap_left i < h.size ∧ h.key (h.arr (heap_left i)) < h.key (h.arr i)
    · right
      rw [if_pos h1]
      exact ⟨by simp [heap_left]; omega, h1.1⟩
    · left; rw [if_neg h1]

/-- heap.c `min_heapify` ("bubble down"). -/
def min_heapify (h : Heap) (i : Nat) : Heap :=
  if hne : heapSmallest h i ≠ i then
    min_heapify (heap_swap h i (heapSmallest h i)) (heapSmallest h i)
  else h
termination_by h.size - i
decreasing_by
  rcases heapSmallest_cases h i with heq | ⟨hlt, hsz⟩
  · exact absurd heq hne
  · show h.size - heapSmallest h i < h.size - i
    omega

/-- heap.c `bubble_up`: the `while` loop rendered as recursion on the
strictly decreasing index. -/
def bubble_up (h : Heap) (i : Nat) : Heap :=
  if hc : 0 < i ∧ h.key (h.arr i) < h.key (h.arr (heap_parent i)) then
    bubble_up (heap_swap h i (heap_parent i)) (heap_parent i)
  else h
termination_by i
decreasing_by
  exact Nat.lt_of_le_of_lt (Nat.div_le_self _ 2) (Nat.pred_lt (Nat.pos_iff_ne_zero.mp hc.1))

/-- The append step of heap.c `heap_insert`: place node `n` at position
`heap_size`, set its back-pointer, grow the size. -/
def heap_append (h : Heap) (n : Nat) : Heap :=
  { h with
    arr := fun x => if x = h.size then n else h.arr x
    pos := fun m => if m = n then (h.size : Int) else h.pos m
    size := h.size + 1 }

/-- The success path of heap.c `heap_insert`: append, then bubble up. -/
def heap_insert_go (h : Heap) (n : Nat) : Heap :=
  bubble_up (heap_append h n) h.size

/-- heap.c `heap_insert`.  Returns the C result code, the new heap, and
the diagnostic lines printed.  The "does not appear to be initialized"
branch prints but does not return (the `return -1` there is commented
out in the source). -/
def heap_insert (h : Heap) (nodeindex : Int) : Int × Heap × List String :=
  if h.size ≥ MAX_NODES then (-1, h, ["HeapError: Heap is full."])
  else if nodeindex < 0 ∨ nodeindex ≥ (MAX_NODES : Int) then
    (-1, h, ["HeapError: Invalid node index."])
  else
    let n := nodeindex.toNat
    let msgs : List String :=
      if h.key n = 0 then ["HeapError: Node does not appear to be initialized."] else []
    if h.pos n ≠ -1 then (-1, h, msgs ++ ["HeapError: Node is already in the heap."])
    else (0, heap_insert_go h n, msgs)

/-- The shared removal step of heap.c `heap_pop` / `heap_delete`: swap
position `i` (holding node `n`) with the last position, shrink the size,
and mark `n` as not-in-heap. -/
def heap_shrink (h : Heap) (i : Nat) (n : Nat) : Heap :=
  { heap_swap h i (h.size - 1) with
    size := h.size - 1
    pos := fun m => if m = n then -1 else (heap_swap h i (h.size - 1)).pos m }

/-- heap.c `heap_pop`: removes and returns the root (minimum key), or
`NIL = -1` on an empty heap. -/
def heap_pop (h : Heap) : Int × Heap :=
  if h.size ≤ 0 then (-1, h)
  else
    let h3 := heap_shrink h 0 (h.arr 0)
    ((h.arr 0 : Int), if 0 < h3.size then min_heapify h3 0 else h3)

/-- heap.c `heap_delete`: removal by identity through the back-map.  After
the shrink step the displaced last element is bubbled up or sifted down
as the comparison with its new parent dictates. -/
def heap_delete (h : Heap) (nodeindex : Int) : Int × Heap :=
  if nodeindex < 0 ∨ nodeindex ≥ (MAX_NODES : Int) ∨ h.pos nodeindex.toNat = -1 then
    (-1, h)
  else
    let n := nodeindex.toNat
    let i := (h.pos n).toNat
    let h3 := heap_shrink h i n
    let h4 :=
      if i < h3.size then
        if 0 < i ∧ h3.key (h3.arr i) < h3.key (h3.arr (heap_parent i)) then bubble_up h3 i
        else min_heapify h3 i
      else h3
    (0, h4)

/-- Structural consistency of the heap state: bounded size, in-range
entries, and the identity↔position bijection through the back-map. -/
structure HeapConsistent (h : Heap) : Prop where
  size_le : h.size ≤ MAX_NODES
  arr_lt : ∀ i, i < h.size → h.arr i < MAX_NODES
  posOf : ∀ i, i < h.size → h.pos (h.arr i) = (i : Int)
  pos_valid : ∀ n, h.pos n ≠ -1 → ∃ i : Nat, h.pos n = (i : Int) ∧ i < h.size ∧ h.arr i = n

/-- The min-heap ordering property. -/
def HeapOrdered (h : Heap) : Prop :=
  ∀ j, 0 < j → j < h.size → h.key (h.arr (heap_parent j)) ≤ h.key (h.arr j)

/-- The full heap invariant: consistency plus ordering. -/
def HeapWf (h : Heap) : Prop := HeapConsistent h ∧ HeapOrdered h

/-! ## Index arithmetic for the implicit binary tree -/

theorem heap_parent_lt {i : Nat} (hi : 0 < i) : heap_parent i < i := by
  unfold heap_parent; omega

theorem heap_parent_eq_iff {i j : Nat} (hj : 0 < j) :
    heap_parent j = i ↔ (j = heap_left i ∨ j = heap_right i) := by
  unfold heap_parent heap_left heap_right; omega

theorem heap_left_parent (i : Nat) : heap_parent (heap_left i) = i := by
  unfold heap_parent heap_left; omega

theorem heap_right_parent (i : Nat) : heap_parent (heap_right i) = i := by
  unfold heap_parent heap_right; omega

theorem lt_heap_left (i : Nat) : i < heap_left i := by unfold heap_left; omega

theorem lt_heap_right (i : Nat) : i < heap_right i := by unfold heap_right; omega

/-! ## `heap_swap` lemmas -/

theorem heap_swap_size (h : Heap) (i j : Nat) : (heap_swap h i j).size = h.size := rfl

theorem heap_swap_key (h : Heap) (i j : Nat) : (heap_swap h i j).key = h.key := rfl

theorem heap_swap_arr_snd (h : Heap) (i j : Nat) : (heap_swap h i j).arr j = h.arr i := by
  simp [heap_swap]

theorem heap_swap_arr_fst (h : Heap) {i j : Nat} (hne : i ≠ j) :
    (heap_swap h i j).arr i = h.arr j := by
  simp [heap_swap, hne]

theorem heap_swap_arr_other (h : Heap) {i j x : Nat} (hx1 : x ≠ i) (hx2 : x ≠ j) :
    (heap_swap h i j).arr x = h.arr x := by
  simp [heap_swap, hx1, hx2]

theorem heap_swap_pos_def (h : Heap) (i j n : Nat) :
    (heap_swap h i j).pos n =
      if n = h.arr j then (i : Int) else if n = h.arr i then (j : Int) else h.pos n := rfl

theorem heap_swap_consistent {h : Heap} {i j : Nat}
    (hc : HeapConsistent h) (hi : i < h.size) (hj : j < h.size) :
    HeapConsistent (heap_swap h i j) ∧
      (∀ m, (heap_swap h i j).pos m = -1 ↔ h.pos m = -1) := by
  have hinj : ∀ x y, x < h.size → y < h.size → h.arr x = h.arr y → x = y := by
    intro x y hx hy hxy
    have h1 := hc.posOf x hx
    have h2 := hc.posOf y hy
    rw [hxy] at h1
    rw [h1] at h2
    exact_mod_cast h2
  constructor
  · refine ⟨hc.size_le, ?_, ?_, ?_⟩
    · intro x hx
      simp only [heap_swap_size] at hx
      by_cases hxj : x = j
      · rw [hxj, heap_swap_arr_snd]; exact hc.arr_lt i hi
      · by_cases hxi : x = i
        · rw [hxi, heap_swap_arr_fst h (hxi ▸ hxj)]; exact hc.arr_lt j hj
        · rw [heap_swap_arr_other h hxi hxj]; exact hc.arr_lt x hx
    · intro x hx
      simp only [heap_swap_size] at hx
      by_cases hxj : x = j
      · rw [hxj, heap_swap_arr_snd, heap_swap_pos_def]
        by_cases hij : h.arr i = h.arr j
        · rw [if_pos hij]
          exact_mod_cast hinj i j hi hj hij
        · rw [if_neg hij, if_pos rfl]
      · by_cases hxi : x = i
        · rw [hxi, heap_swap_arr_fst h (hxi ▸ hxj), heap_swap_pos_def, if_pos rfl]
        · rw [heap_swap_arr_other h hxi hxj, heap_swap_pos_def]
          have hnj : h.arr x ≠ h.arr j := fun he => hxj (hinj x j hx hj he)
          have hni : h.arr x ≠ h.arr i := fun he => hxi (hinj x i hx hi he)
          rw [if_neg hnj, if_neg hni]
          exact hc.posOf x hx
    · intro n hn
      rw [heap_swap_pos_def] at hn
      by_cases hnj : n = h.arr j
      · refine ⟨i, by rw [heap_swap_pos_def, if_pos hnj], hi, ?_⟩
        by_cases hij : i = j
        · rw [hij, heap_swap_arr_snd]; exact hnj.symm
        · rw [heap_swap_arr_fst h hij]; exact hnj.symm
      · by_cases hni : n = h.arr i
        · refine ⟨j, by rw [heap_swap_pos_def, if_neg hnj, if_pos hni], hj, ?_⟩
          rw [heap_swap_arr_snd]; exact hni.symm
        · rw [if_neg hnj, if_neg hni] at hn
          obtain ⟨k, hk1, hk2, hk3⟩ := hc.pos_valid n hn
          refine ⟨k, ?_, hk2, ?_⟩
          · rw [heap_swap_pos_def, if_neg hnj, if_neg hni]; exact hk1
          · have hki : k ≠ i := fun he => hni (by rw [← he, hk3])
            have hkj : k ≠ j := fun he => hnj (by rw [← he, hk3])
            rw [heap_swap_arr_other h hki hkj]; exact hk3
  · intro m
    rw [heap_swap_pos_def]
    by_cases hmj : m = h.arr j
    · rw [if_pos hmj]
      constructor
      · intro he; exact absurd he (by omega)
      · intro he
        have := hc.posOf j hj
        rw [← hmj] at this
        rw [this] at he
        exact absurd he (by omega)
    · by_cases hmi : m = h.arr i
      · rw [if_neg hmj, if_pos hmi]
        constructor
        · intro he; exact absurd he (by omega)
        · intro he
          have := hc.posOf i hi
          rw [← hmi] at this
          rw [this] at he
          exact absurd he (by omega)
      · rw [if_neg hmj, if_neg hmi]

/-! ## `min_heapify` and `bubble_up`: structural preservation -/

theorem min_heapify_spec : ∀ (n : Nat) (h : Heap) (i : Nat), h.size - i ≤ n →
    (min_heapify h i).size = h.size ∧ (min_heapify h i).key = h.key ∧
    (HeapConsistent h → HeapConsistent (min_heapify h i) ∧
      ∀ m, (min_heapify h i).pos m = -1 ↔ h.pos m = -1) := by
  intro n
  induction n with
  | zero =>
    intro h i hle
    rw [min_heapify]
    rcases heapSmallest_cases h i with heq | ⟨hlt, hsz⟩
    · rw [dif_neg (not_not_intro heq)]
      exact ⟨rfl, rfl, fun hc => ⟨hc, fun m => Iff.rfl⟩⟩
    · omega
  | succ n ih =>
    intro h i hle
    rw [min_heapify]
    by_cases hne : heapSmallest h i ≠ i
    · rw [dif_pos hne]
      rcases heapSmallest_cases h i with heq | ⟨hlt, hsz⟩
      · exact absurd heq hne
      have hi : i < h.size := lt_trans hlt hsz
      obtain ⟨hsz', hkey', hcons'⟩ :=
        ih (heap_swap h i (heapSmallest h i)) (heapSmallest h i)
          (by rw [heap_swap_size]; omega)
      refine ⟨by rw [hsz', heap_swap_size], by rw [hkey', heap_swap_key], ?_⟩
      intro hc
      obtain ⟨hc', hpres'⟩ := heap_swap_consistent hc hi hsz
      obtain ⟨hc'', hpres''⟩ := hcons' hc'
      exact ⟨hc'', fun m => (hpres'' m).trans (hpres' m)⟩
    · rw [dif_neg hne]
      exact ⟨rfl, rfl, fun hc => ⟨hc, fun m => Iff.rfl⟩⟩

theorem min_heapify_size (h : Heap) (i : Nat) : (min_heapify h i).size = h.size :=
  (min_heapify_spec (h.size - i) h i le_rfl).1

theorem min_heapify_key (h : Heap) (i : Nat) : (min_heapify h i).key = h.key :=
  (min_heapify_spec (h.size - i) h i le_rfl).2.1

theorem min_heapify_consistent {h : Heap} (i : Nat) (hc : HeapConsistent h) :
    HeapConsistent (min_heapify h i) ∧
      ∀ m, (min_heapify h i).pos m = -1 ↔ h.pos m = -1 :=
  (min_heapify_spec (h.size - i) h i le_rfl).2.2 hc

theorem bubble_up_spec : ∀ (i : Nat) (h : Heap),
    (bubble_up h i).size = h.size ∧ (bubble_up h i).key = h.key ∧
    (HeapConsistent h → i < h.size → HeapConsistent (bubble_up h i) ∧
      ∀ m, (bubble_up h i).pos m = -1 ↔ h.pos m = -1) := by
  intro i
  induction i using Nat.strong_induction_on with
  | _ i ih =>
    intro h
    rw [bubble_up]
    by_cases hcnd : 0 < i ∧ h.key (h.arr i) < h.key (h.arr (heap_parent i))
    · rw [dif_pos hcnd]
      have hp : heap_parent i < i := heap_parent_lt hcnd.1
      obtain ⟨hsz', hkey', hcons'⟩ := ih (heap_parent i) hp (heap_swap h i (heap_parent i))
      refine ⟨by rw [hsz', heap_swap_size], by rw [hkey', heap_swap_key], ?_⟩
      intro hc hi
      obtain ⟨hc', hpres'⟩ := heap_swap_consistent hc hi (lt_trans hp hi)
      obtain ⟨hc'', hpres''⟩ := hcons' hc' (by rw [heap_swap_size]; exact lt_trans hp hi)
      exact ⟨hc'', fun m => (hpres'' m).trans (hpres' m)⟩
    · rw [dif_neg hcnd]
      exact ⟨rfl, rfl, fun hc _ => ⟨hc, fun m => Iff.rfl⟩⟩

theorem bubble_up_size (h : Heap) (i : Nat) : (bubble_up h i).size = h.size :=
  (bubble_up_spec i h).1

theorem bubble_up_key (h : Heap) (i : Nat) : (bubble_up h i).key = h.key :=
  (bubble_up_spec i h).2.1

theorem bubble_up_consistent {h : Heap} {i : Nat} (hc : HeapConsistent h) (hi : i < h.size) :
    HeapConsistent (bubble_up h i) ∧
      ∀ m, (bubble_up h i).pos m = -1 ↔ h.pos m = -1 :=
  (bubble_up_spec i h).2.2 hc hi

/-! ## `heapSmallest` key comparisons -/

theorem heapSmallest_key_le_self (h : Heap) (i : Nat) :
    h.key (h.arr (heapSmallest h i)) ≤ h.key (h.arr i) := by
  unfold heapSmallest
  by_cases h1 : heap_left i < h.size ∧ h.key (h.arr (heap_left i)) < h.key (h.arr i)
  · rw [if_pos h1]
    by_cases h2 : heap_right i < h.size ∧
        h.key (h.arr (heap_right i)) < h.key (h.arr (heap_left i))
    · rw [if_pos h2]; exact le_of_lt (lt_trans h2.2 h1.2)
    · rw [if_neg h2]; exact le_of_lt h1.2
  · rw [if_neg h1]
    by_cases h2 : heap_right i < h.size ∧ h.key (h.arr (heap_right i)) < h.key (h.arr i)
    · rw [if_pos h2]; exact le_of_lt h2.2
    · rw [if_neg h2]

theorem heapSmallest_key_lt_self {h : Heap} {i : Nat} (hne : heapSmallest h i ≠ i) :
    h.key (h.arr (heapSmallest h i)) < h.key (h.arr i) := by
  unfold heapSmallest at hne ⊢
  by_cases h1 : heap_left i < h.size ∧ h.key (h.arr (heap_left i)) < h.key (h.arr i)
  · rw [if_pos h1] at hne ⊢
    by_cases h2 : heap_right i < h.size ∧
        h.key (h.arr (heap_right i)) < h.key (h.arr (heap_left i))
    · rw [if_pos h2]; exact lt_trans h2.2 h1.2
    · rw [if_neg h2]; exact h1.2
  · rw [if_neg h1] at hne ⊢
    by_cases h2 : heap_right i < h.size ∧ h.key (h.arr (heap_right i)) < h.key (h.arr i)
    · rw [if_pos h2]; exact h2.2
    · rw [if_neg h2] at hne ⊢; exact absurd rfl hne

theorem heapSmallest_key_le_left (h : Heap) (i : Nat) (hl : heap_left i < h.size) :
    h.key (h.arr (heapSmallest h i)) ≤ h.key (h.arr (heap_left i)) := by
  unfold heapSmallest
  by_cases h1 : heap_left i < h.size ∧ h.key (h.arr (heap_left i)) < h.key (h.arr i)
  · rw [if_pos h1]
    by_cases h2 : heap_right i < h.size ∧
        h.key (h.arr (heap_right i)) < h.key (h.arr (heap_left i))
    · rw [if_pos h2]; exact le_of_lt h2.2
    · rw [if_neg h2]
  · rw [if_neg h1]
    have hil : h.key (h.arr i) ≤ h.key (h.arr (heap_left i)) := by
      rcases not_and_or.mp h1 with hc | hc
      · exact absurd hl hc
      · exact le_of_not_lt hc
    by_cases h2 : heap_right i < h.size ∧ h.key (h.arr (heap_right i)) < h.key (h.arr i)
    · rw [if_pos h2]; exact le_of_lt (lt_of_lt_of_le h2.2 hil)
    · rw [if_neg h2]; exact hil

theorem heapSmallest_key_le_right (h : Heap) (i : Nat) (hr : heap_right i < h.size) :
    h.key (h.arr (heapSmallest h i)) ≤ h.key (h.arr (heap_right i)) := by
  unfold heapSmallest
  by_cases h1 : heap_left i < h.size ∧ h.key (h.arr (heap_left i)) < h.key (h.arr i)
  · rw [if_pos h1]
    by_cases h2 : heap_right i < h.size ∧
        h.key (h.arr (heap_right i)) < h.key (h.arr (heap_left i))
    · rw [if_pos h2]
    · rw [if_neg h2]
      rcases not_and_or.mp h2 with hc | hc
      · exact absurd hr hc
      · exact le_of_not_lt hc
  · rw [if_neg h1]
    by_cases h2 : heap_right i < h.size ∧ h.key (h.arr (heap_right i)) < h.key (h.arr i)
    · rw [if_pos h2]
    · rw [if_neg h2]
      rcases not_and_or.mp h2 with hc | hc
      · exact absurd hr hc
      · exact le_of_not_lt hc

theorem heapSmallest_child {h : Heap} {i : Nat} (hne : heapSmallest h i ≠ i) :
    heapSmallest h i = heap_left i ∨ heapSmallest h i = heap_right i := by
  unfold heapSmallest at hne ⊢
  by_cases h2 : heap_right i < h.size ∧
      h.key (h.arr (heap_right i)) < h.key (h.arr
        (if heap_left i < h.size ∧ h.key (h.arr (heap_left i)) < h.key (h.arr i)
         then heap_left i else i))
  · rw [if_pos h2]; right; rfl
  · rw [if_neg h2] at hne ⊢
    by_cases h1 : heap_left i < h.size ∧ h.key (h.arr (heap_left i)) < h.key (h.arr i)
    · rw [if_pos h1]; left; rfl
    · rw [if_neg h1] at hne; exact absurd rfl hne

theorem heapSmallest_eq_self {h : Heap} {i : Nat} (heq : heapSmallest h i = i) :
    (heap_left i < h.size → h.key (h.arr i) ≤ h.key (h.arr (heap_left i))) ∧
    (heap_right i < h.size → h.key (h.arr i) ≤ h.key (h.arr (heap_right i))) := by
  unfold heapSmallest at heq
  by_cases h1 : heap_left i < h.size ∧ h.key (h.arr (heap_left i)) < h.key (h.arr i)
  · rw [if_pos h1] at heq
    by_cases h2 : heap_right i < h.size ∧
        h.key (h.arr (heap_right i)) < h.key (h.arr (heap_left i))
    · rw [if_pos h2] at heq
      exact absurd heq (by have := lt_heap_right i; omega)
    · rw [if_neg h2] at heq
      exact absurd heq (by have := lt_heap_left i; omega)
  · rw [if_neg h1] at heq
    have hl : heap_left i < h.size → h.key (h.arr i) ≤ h.key (h.arr (heap_left i)) := by
      intro hls
      rcases not_and_or.mp h1 with hc | hc
      · exact absurd hls hc
      · exact le_of_not_lt hc
    by_cases h2 : heap_right i < h.size ∧ h.key (h.arr (heap_right i)) < h.key (h.arr i)
    · rw [if_pos h2] at heq
      exact absurd heq (by have := lt_heap_right i; omega)
    · rw [if_neg h2] at heq
      refine ⟨hl, fun hrs => ?_⟩
      rcases not_and_or.mp h2 with hc | hc
      · exact absurd hrs hc
      · exact le_of_not_lt hc

/-! ## Ordering restoration -/

/-- Heap ordering holding at every edge except those whose parent endpoint
is `i` (the sift-down precondition). -/
def PartialBelow (h : Heap) (i : Nat) : Prop :=
  ∀ j, 0 < j → j < h.size → heap_parent j ≠ i →
    h.key (h.arr (heap_parent j)) ≤ h.key (h.arr j)

/-- Heap ordering holding at every edge except the one whose child endpoint
is `i` (the sift-up precondition). -/
def PartialExcept (h : Heap) (i : Nat) : Prop :=
  ∀ j, 0 < j → j < h.size → j ≠ i →
    h.key (h.arr (heap_parent j)) ≤ h.key (h.arr j)

/-- `i`'s parent's key is below the keys of `i`'s children (the link that
is skipped over while the edge at `i` is broken). -/
def AboveBound (h : Heap) (i : Nat) : Prop :=
  ∀ j, j < h.size → heap_parent j = i → 0 < i →
    h.key (h.arr (heap_parent i)) ≤ h.key (h.arr j)

theorem min_heapify_ordered : ∀ (n : Nat) (h : Heap) (i : Nat), h.size - i ≤ n →
    PartialBelow h i → AboveBound h i → HeapOrdered (min_heapify h i) := by
  intro n
  induction n with
  | zero =>
    intro h i hle hpb hab
    rw [min_heapify]
    rcases heapSmallest_cases h i with heq | ⟨hlt, hsz⟩
    · rw [dif_neg (not_not_intro heq)]
      intro j hj0 hjs
      by_cases hpj : heap_parent j = i
      · exfalso
        have := heap_parent_lt hj0
        omega
      · exact hpb j hj0 hjs hpj
    · omega
  | succ n ih =>
    intro h i hle hpb hab
    rw [min_heapify]
    by_cases hne : heapSmallest h i ≠ i
    · rw [dif_pos hne]
      rcases heapSmallest_cases h i with heq | ⟨hlt, hsz⟩
      · exact absurd heq hne
      have hi : i < h.size := lt_trans hlt hsz
      have hine : i ≠ heapSmallest h i := ne_of_lt hlt
      have hps : heap_parent (heapSmallest h i) = i := by
        rcases heapSmallest_child hne with hc | hc
        · rw [hc, heap_left_parent]
        · rw [hc, heap_right_parent]
      have hkey_lt := heapSmallest_key_lt_self hne
      have hpb' : PartialBelow (heap_swap h i (heapSmallest h i)) (heapSmallest h i) := by
        intro j hj0 hjs hpar
        rw [heap_swap_size] at hjs
        rw [heap_swap_key]
        by_cases hji : j = i
        · rw [hji]
          have h0i : 0 < i := by omega
          have hpi_lt : heap_parent i < i := heap_parent_lt h0i
          have hpi_ne_i : heap_parent i ≠ i := ne_of_lt hpi_lt
          have hpi_ne_s : heap_parent i ≠ heapSmallest h i := by omega
          rw [heap_swap_arr_other h hpi_ne_i hpi_ne_s, heap_swap_arr_fst h hine]
          exact hab (heapSmallest h i) hsz hps h0i
        · by_cases hjs2 : j = heapSmallest h i
          · rw [hjs2, hps, heap_swap_arr_fst h hine, heap_swap_arr_snd]
            exact le_of_lt hkey_lt
          · rw [heap_swap_arr_other h hji hjs2]
            by_cases hpari : heap_parent j = i
            · rw [hpari, heap_swap_arr_fst h hine]
              rcases (heap_parent_eq_iff hj0).mp hpari with hjl | hjr
              · rw [hjl]; exact heapSmallest_key_le_left h i (hjl ▸ hjs)
              · rw [hjr]; exact heapSmallest_key_le_right h i (hjr ▸ hjs)
            · rw [heap_swap_arr_other h hpari hpar]
              exact hpb j hj0 hjs hpari
      have hab' : AboveBound (heap_swap h i (heapSmallest h i)) (heapSmallest h i) := by
        intro j hjsize hparj hspos
        rw [heap_swap_size] at hjsize
        rw [heap_swap_key, hps, heap_swap_arr_fst h hine]
        have h0j : 0 < j := by
          rcases Nat.eq_zero_or_pos j with h0 | h0
          · exfalso
            rw [h0] at hparj
            unfold heap_parent at hparj
            omega
          · exact h0
        have hj_gt : heapSmallest h i < j := by
          rcases (heap_parent_eq_iff h0j).mp hparj with hjl | hjr
          · rw [hjl]; exact lt_heap_left _
          · rw [hjr]; exact lt_heap_right _
        rw [heap_swap_arr_other h (by omega) (by omega)]
        have hch := hpb j h0j hjsize (by rw [hparj]; omega)
        rw [hparj] at hch
        exact hch
      exact ih (heap_swap h i (heapSmallest h i)) (heapSmallest h i)
        (by rw [heap_swap_size]; omega) hpb' hab'
    · rw [dif_neg hne]
      intro j hj0 hjs
      by_cases hpj : heap_parent j = i
      · rcases (heap_parent_eq_iff hj0).mp hpj with hjl | hjr
        · rw [hpj, hjl]; exact (heapSmallest_eq_self (not_not.mp hne)).1 (hjl ▸ hjs)
        · rw [hpj, hjr]; exact (heapSmallest_eq_self (not_not.mp hne)).2 (hjr ▸ hjs)
      · exact hpb j hj0 hjs hpj

theorem bubble_up_ordered : ∀ (i : Nat) (h : Heap), i < h.size →
    PartialExcept h i → AboveBound h i → HeapOrdered (bubble_up h i) := by
  intro i
  induction i using Nat.strong_induction_on with
  | _ i ih =>
    intro h hi hpe hab
    rw [bubble_up]
    by_cases hcnd : 0 < i ∧ h.key (h.arr i) < h.key (h.arr (heap_parent i))
    · rw [dif_pos hcnd]
      obtain ⟨h0i, hklt⟩ := hcnd
      have hp_lt : heap_parent i < i := heap_parent_lt h0i
      have hip_ne : i ≠ heap_parent i := ne_of_gt hp_lt
      have hpe' : PartialExcept (heap_swap h i (heap_parent i)) (heap_parent i) := by
        intro j hj0 hjs hjp
        rw [heap_swap_size] at hjs
        rw [heap_swap_key]
        by_cases hji : j = i
        · rw [hji, heap_swap_arr_snd, heap_swap_arr_fst h hip_ne]
          exact le_of_lt hklt
        · by_cases hpj_p : heap_parent j = heap_parent i
          · rw [hpj_p, heap_swap_arr_snd, heap_swap_arr_other h hji hjp]
            refine le_trans (le_of_lt hklt) ?_
            have hch := hpe j hj0 hjs hji
            rw [hpj_p] at hch
            exact hch
          · by_cases hpj_i : heap_parent j = i
            · rw [hpj_i, heap_swap_arr_fst h hip_ne, heap_swap_arr_other h hji hjp]
              exact hab j hjs hpj_i h0i
            · rw [heap_swap_arr_other h hpj_i hpj_p, heap_swap_arr_other h hji hjp]
              exact hpe j hj0 hjs hji
      have hab' : AboveBound (heap_swap h i (heap_parent i)) (heap_parent i) := by
        intro j hjs hpj h0p
        rw [heap_swap_size] at hjs
        rw [heap_swap_key]
        have hpp_lt : heap_parent (heap_parent i) < heap_parent i := heap_parent_lt h0p
        have hpp_ne_i : heap_parent (heap_parent i) ≠ i := by omega
        have hpp_ne_p : heap_parent (heap_parent i) ≠ heap_parent i := by omega
        rw [heap_swap_arr_other h hpp_ne_i hpp_ne_p]
        by_cases hji : j = i
        · rw [hji, heap_swap_arr_fst h hip_ne]
          exact hpe (heap_parent i) h0p (lt_trans hp_lt hi) (ne_of_lt hp_lt)
        · have hjp : j ≠ heap_parent i := by
            intro he
            rw [he] at hpj
            omega
          rw [heap_swap_arr_other h hji hjp]
          have h0j : 0 < j := by
            rcases Nat.eq_zero_or_pos j with h0 | h0
            · exfalso
              rw [h0, show heap_parent 0 = 0 from rfl] at hpj
              omega
            · exact h0
          refine le_trans (hpe (heap_parent i) h0p (lt_trans hp_lt hi) (ne_of_lt hp_lt)) ?_
          have hch := hpe j h0j hjs hji
          rw [hpj] at hch
          exact hch
      exact ih (heap_parent i) hp_lt (heap_swap h i (heap_parent i))
        (by rw [heap_swap_size]; exact lt_trans hp_lt hi) hpe' hab'
    · rw [dif_neg hcnd]
      intro j hj0 hjs
      by_cases hji : j = i
      · rw [hji]
        rcases not_and_or.mp hcnd with hc | hc
        · exact absurd (hji ▸ hj0) hc
        · exact le_of_not_lt hc
      · exact hpe j hj0 hjs hji

/-! ## `heap_shrink`, pigeonhole, and the root-minimality lemma -/

theorem heap_shrink_key (h : Heap) (i n : Nat) : (heap_shrink h i n).key = h.key := rfl

theorem heap_shrink_size (h : Heap) (i n : Nat) : (heap_shrink h i n).size = h.size - 1 := rfl

theorem heap_shrink_arr (h : Heap) (i n : Nat) :
    (heap_shrink h i n).arr = (heap_swap h i (h.size - 1)).arr := rfl

theorem heap_shrink_pos_def (h : Heap) (i n m : Nat) :
    (heap_shrink h i n).pos m =
      if m = n then -1 else (heap_swap h i (h.size - 1)).pos m := rfl

theorem heap_shrink_spec {h : Heap} {i n : Nat}
    (hc : HeapConsistent h) (hi : i < h.size) (hn : h.arr i = n) :
    HeapConsistent (heap_shrink h i n) ∧
    (heap_shrink h i n).pos n = -1 ∧
    (∀ m, m ≠ n → ((heap_shrink h i n).pos m = -1 ↔ h.pos m = -1)) := by
  have hlast : h.size - 1 < h.size := by omega
  obtain ⟨hc1, hpres1⟩ := heap_swap_consistent hc hi hlast
  have harr1_last : (heap_swap h i (h.size - 1)).arr (h.size - 1) = n := by
    rw [heap_swap_arr_snd, hn]
  have hpos1_n : (heap_swap h i (h.size - 1)).pos n = ((h.size - 1 : Nat) : Int) := by
    have := hc1.posOf (h.size - 1) (by rw [heap_swap_size]; exact hlast)
    rw [harr1_last] at this
    exact this
  have harr1_ne : ∀ j, j < h.size - 1 → (heap_swap h i (h.size - 1)).arr j ≠ n := by
    intro j hj he
    have h1 := hc1.posOf j (by rw [heap_swap_size]; omega)
    rw [he, hpos1_n] at h1
    omega
  refine ⟨⟨?_, ?_, ?_, ?_⟩, ?_, ?_⟩
  · show h.size - 1 ≤ MAX_NODES
    have := hc.size_le
    omega
  · intro j hj
    rw [heap_shrink_size] at hj
    exact hc1.arr_lt j (by rw [heap_swap_size]; omega)
  · intro j hj
    rw [heap_shrink_size] at hj
    show (heap_shrink h i n).pos ((heap_shrink h i n).arr j) = (j : Int)
    rw [heap_shrink_arr, heap_shrink_pos_def, if_neg (harr1_ne j hj)]
    exact hc1.posOf j (by rw [heap_swap_size]; omega)
  · intro m hm
    rw [heap_shrink_pos_def] at hm
    by_cases hmn : m = n
    · rw [if_pos hmn] at hm
      exact absurd rfl hm
    · rw [if_neg hmn] at hm
      obtain ⟨j, hj1, hj2, hj3⟩ := hc1.pos_valid m hm
      rw [heap_swap_size] at hj2
      have hjlt : j < h.size - 1 := by
        rcases Nat.lt_or_ge j (h.size - 1) with hlt | hge
        · exact hlt
        · exfalso
          have : j = h.size - 1 := by omega
          rw [this, harr1_last] at hj3
          exact hmn hj3.symm
      exact ⟨j, by rw [heap_shrink_pos_def, if_neg hmn]; exact hj1, hjlt, hj3⟩
  · rw [heap_shrink_pos_def, if_pos rfl]
  · intro m hm
    rw [heap_shrink_pos_def, if_neg hm]
    exact hpres1 m

theorem heapConsistent_size_lt {h : Heap} (hc : HeapConsistent h) {n : Nat}
    (hn : n < MAX_NODES) (hpos : h.pos n = -1) : h.size < MAX_NODES := by
  by_contra hge
  have hsize : h.size = MAX_NODES := le_antisymm hc.size_le (le_of_not_lt hge)
  have hmaps : ∀ j ∈ Finset.range h.size, h.arr j ∈ (Finset.range MAX_NODES).erase n := by
    intro j hj
    rw [Finset.mem_range] at hj
    rw [Finset.mem_erase, Finset.mem_range]
    refine ⟨?_, hc.arr_lt j hj⟩
    intro he
    rw [← he] at hpos
    have := hc.posOf j hj
    rw [hpos] at this
    omega
  have hinj : Set.InjOn h.arr (Finset.range h.size) := by
    intro x hx y hy hxy
    rw [Finset.coe_range, Set.mem_Iio] at hx hy
    have h1 := hc.posOf x hx
    have h2 := hc.posOf y hy
    rw [hxy, h2] at h1
    exact_mod_cast h1.symm
  have hcard := Finset.card_le_card_of_injOn h.arr hmaps hinj
  rw [Finset.card_range, Finset.card_erase_of_mem (Finset.mem_range.mpr hn),
    Finset.card_range] at hcard
  omega

theorem heapOrdered_root_min {h : Heap} (ho : HeapOrdered h) :
    ∀ j, j < h.size → h.key (h.arr 0) ≤ h.key (h.arr j) := by
  intro j
  induction j using Nat.strong_induction_on with
  | _ j ih =>
    intro hj
    rcases Nat.eq_zero_or_pos j with h0 | h0
    · rw [h0]
    · have hp := ho j h0 hj
      have hplt : heap_parent j < j := heap_parent_lt h0
      exact le_trans (ih (heap_parent j) hplt (lt_trans hplt hj)) hp

/-! ## `heap_insert` correctness -/

theorem heap_append_size (h : Heap) (n : Nat) : (heap_append h n).size = h.size + 1 := rfl

theorem heap_append_key (h : Heap) (n : Nat) : (heap_append h n).key = h.key := rfl

theorem heap_append_arr_last (h : Heap) (n : Nat) : (heap_append h n).arr h.size = n := by
  simp [heap_append]

theorem heap_append_arr_other (h : Heap) {n x : Nat} (hx : x ≠ h.size) :
    (heap_append h n).arr x = h.arr x := by
  simp [heap_append, hx]

theorem heap_append_pos_self (h : Heap) (n : Nat) :
    (heap_append h n).pos n = (h.size : Int) := by
  simp [heap_append]

theorem heap_append_pos_other (h : Heap) {n m : Nat} (hm : m ≠ n) :
    (heap_append h n).pos m = h.pos m := by
  simp [heap_append, hm]

theorem heap_append_consistent {h : Heap} {n : Nat}
    (hc : HeapConsistent h) (hn : n < MAX_NODES) (hpos : h.pos n = -1)
    (hsz : h.size < MAX_NODES) : HeapConsistent (heap_append h n) := by
  have harr_ne : ∀ x, x < h.size → h.arr x ≠ n := by
    intro x hx he
    have := hc.posOf x hx
    rw [he, hpos] at this
    omega
  refine ⟨by rw [heap_append_size]; omega, ?_, ?_, ?_⟩
  · intro x hx
    rw [heap_append_size] at hx
    by_cases hxs : x = h.size
    · rw [hxs, heap_append_arr_last]; exact hn
    · rw [heap_append_arr_other h hxs]
      exact hc.arr_lt x (by omega)
  · intro x hx
    rw [heap_append_size] at hx
    by_cases hxs : x = h.size
    · rw [hxs, heap_append_arr_last, heap_append_pos_self]
    · have hxlt : x < h.size := by omega
      rw [heap_append_arr_other h hxs, heap_append_pos_other h (harr_ne x hxlt)]
      exact hc.posOf x hxlt
  · intro m hm
    by_cases hmn : m = n
    · exact ⟨h.size, by rw [hmn, heap_append_pos_self],
        by rw [heap_append_size]; omega, by rw [hmn, heap_append_arr_last]⟩
    · rw [heap_append_pos_other h hmn] at hm
      obtain ⟨x, hx1, hx2, hx3⟩ := hc.pos_valid m hm
      exact ⟨x, by rw [heap_append_pos_other h hmn]; exact hx1,
        by rw [heap_append_size]; omega,
        by rw [heap_append_arr_other h (by omega)]; exact hx3⟩

theorem heap_insert_go_spec {h : Heap} {n : Nat}
    (hwf : HeapWf h) (hn : n < MAX_NODES) (hpos : h.pos n = -1)
    (hsz : h.size < MAX_NODES) :
    HeapWf (heap_insert_go h n) ∧
    (heap_insert_go h n).size = h.size + 1 ∧
    (heap_insert_go h n).key = h.key ∧
    (heap_insert_go h n).pos n ≠ -1 ∧
    (∀ m, m ≠ n → ((heap_insert_go h n).pos m = -1 ↔ h.pos m = -1)) := by
  obtain ⟨hc, ho⟩ := hwf
  have hca := heap_append_consistent hc hn hpos hsz
  have hszlt : h.size < (heap_append h n).size := by rw [heap_append_size]; omega
  have hpe : PartialExcept (heap_append h n) h.size := by
    intro j hj0 hjs hjne
    rw [heap_append_size] at hjs
    have hjlt : j < h.size := by omega
    have hpj_lt : heap_parent j < j := heap_parent_lt hj0
    rw [heap_append_arr_other h (by omega), heap_append_arr_other h (by omega),
      heap_append_key]
    exact ho j hj0 hjlt
  have hab : AboveBound (heap_append h n) h.size := by
    intro j hjs hpj hp0
    exfalso
    rw [heap_append_size] at hjs
    rcases Nat.eq_zero_or_pos j with h0 | h0
    · rw [h0, show heap_parent 0 = 0 from rfl] at hpj
      omega
    · have := heap_parent_lt h0
      omega
  obtain ⟨hc', hpres'⟩ := bubble_up_consistent hca hszlt
  have ho' : HeapOrdered (heap_insert_go h n) :=
    bubble_up_ordered h.size (heap_append h n) hszlt hpe hab
  refine ⟨⟨hc', ho'⟩, ?_, ?_, ?_, ?_⟩
  · rw [show (heap_insert_go h n).size = (bubble_up (heap_append h n) h.size).size from rfl,
      bubble_up_size, heap_append_size]
  · rw [show (heap_insert_go h n).key = (bubble_up (heap_append h n) h.size).key from rfl,
      bubble_up_key, heap_append_key]
  · intro he
    have := (hpres' n).mp he
    rw [heap_append_pos_self] at this
    omega
  · intro m hm
    refine (hpres' m).trans ?_
    rw [heap_append_pos_other h hm]

/-- On a consistent heap, inserting a node index that is in range and not
in the heap succeeds (result code `0`), whatever its key; the key-zero
diagnostic is advisory only. -/
theorem heap_insert_eq_go {h : Heap} {n : Nat}
    (hc : HeapConsistent h) (hn : n < MAX_NODES) (hpos : h.pos n = -1) :
    heap_insert h (n : Int) =
      (0, heap_insert_go h n,
        if h.key n = 0 then ["HeapError: Node does not appear to be initialized."]
        else []) := by
  have hsz : h.size < MAX_NODES := heapConsistent_size_lt hc hn hpos
  unfold heap_insert
  rw [if_neg (by omega)]
  rw [if_neg (by push_neg; constructor <;> omega)]
  simp only [Int.toNat_natCast]
  rw [if_neg (not_not_intro hpos)]

/-! ## `heap_pop` correctness -/

theorem heap_pop_spec {h : Heap} (hwf : HeapWf h) (hsz : 0 < h.size) :
    (heap_pop h).1 = (h.arr 0 : Int) ∧
    (∀ j, j < h.size → h.key (h.arr 0) ≤ h.key (h.arr j)) ∧
    HeapWf (heap_pop h).2 ∧
    (heap_pop h).2.size = h.size - 1 ∧
    (heap_pop h).2.key = h.key ∧
    (heap_pop h).2.pos (h.arr 0) = -1 ∧
    (∀ m, m ≠ h.arr 0 → ((heap_pop h).2.pos m = -1 ↔ h.pos m = -1)) := by
  obtain ⟨hc, ho⟩ := hwf
  have hpop : heap_pop h = ((h.arr 0 : Int),
      if 0 < (heap_shrink h 0 (h.arr 0)).size then min_heapify (heap_shrink h 0 (h.arr 0)) 0
      else heap_shrink h 0 (h.arr 0)) := by
    unfold heap_pop
    rw [if_neg (by omega)]
  obtain ⟨hc3, hpos3, hpres3⟩ := heap_shrink_spec hc hsz rfl
  have hkey3 : (heap_shrink h 0 (h.arr 0)).key = h.key := heap_shrink_key h 0 _
  have hsz3 : (heap_shrink h 0 (h.arr 0)).size = h.size - 1 := heap_shrink_size h 0 _
  by_cases hpos_sz : 0 < (heap_shrink h 0 (h.arr 0)).size
  · have hpb : PartialBelow (heap_shrink h 0 (h.arr 0)) 0 := by
      intro j hj0 hjs hpar
      rw [hsz3] at hjs
      have hpj_lt : heap_parent j < j := heap_parent_lt hj0
      rw [heap_shrink_key, heap_shrink_arr,
        heap_swap_arr_other h (by omega) (by omega),
        heap_swap_arr_other h (by omega) (by omega)]
      exact ho j hj0 (by omega)
    have hab : AboveBound (heap_shrink h 0 (h.arr 0)) 0 := by
      intro j hjs hpj h0
      exact absurd h0 (lt_irrefl 0)
    have hord := min_heapify_ordered ((heap_shrink h 0 (h.arr 0)).size) _ 0 (by omega) hpb hab
    obtain ⟨hc4, hpres4⟩ := min_heapify_consistent 0 hc3
    rw [hpop, if_pos hpos_sz]
    refine ⟨rfl, heapOrdered_root_min ho, ⟨hc4, hord⟩, ?_, ?_, ?_, ?_⟩
    · rw [min_heapify_size, hsz3]
    · rw [min_heapify_key, hkey3]
    · exact (hpres4 (h.arr 0)).mpr hpos3
    · intro m hm
      exact (hpres4 m).trans (hpres3 m hm)
  · rw [hpop, if_neg hpos_sz]
    refine ⟨rfl, heapOrdered_root_min ho, ⟨hc3, ?_⟩, hsz3, hkey3, hpos3, hpres3⟩
    intro j hj0 hjs
    exfalso
    have hjs' : j < (heap_shrink h 0 (h.arr 0)).size := hjs
    omega

/-! ## `heap_delete` correctness -/

theorem heap_delete_spec (h : Heap) (nodeindex : Int) (hwf : HeapWf h) :
    ((0 ≤ nodeindex ∧ nodeindex < (MAX_NODES : Int) ∧ h.pos nodeindex.toNat ≠ -1) →
      (heap_delete h nodeindex).1 = 0 ∧
      HeapWf (heap_delete h nodeindex).2 ∧
      (heap_delete h nodeindex).2.size + 1 = h.size ∧
      (heap_delete h nodeindex).2.key = h.key ∧
      (heap_delete h nodeindex).2.pos nodeindex.toNat = -1 ∧
      (∀ m, m ≠ nodeindex.toNat →
        ((heap_delete h nodeindex).2.pos m = -1 ↔ h.pos m = -1))) ∧
    ((nodeindex < 0 ∨ nodeindex ≥ (MAX_NODES : Int) ∨ h.pos nodeindex.toNat = -1) →
      heap_delete h nodeindex = (-1, h)) := by
  obtain ⟨hc, ho⟩ := hwf
  constructor
  · rintro ⟨hn0, hnM, hpos⟩
    obtain ⟨i, hpos_eq, hi, harr_i⟩ := hc.pos_valid _ hpos
    have hiN : (h.pos nodeindex.toNat).toNat = i := by
      rw [hpos_eq]; exact Int.toNat_natCast i
    have hdel : heap_delete h nodeindex =
        (0, if i < (heap_shrink h i nodeindex.toNat).size then
              (if 0 < i ∧ (heap_shrink h i nodeindex.toNat).key
                    ((heap_shrink h i nodeindex.toNat).arr i) <
                  (heap_shrink h i nodeindex.toNat).key
                    ((heap_shrink h i nodeindex.toNat).arr (heap_parent i))
               then bubble_up (heap_shrink h i nodeindex.toNat) i
               else min_heapify (heap_shrink h i nodeindex.toNat) i)
            else heap_shrink h i nodeindex.toNat) := by
      simp only [heap_delete]
      rw [if_neg (by push_neg; exact ⟨by omega, by omega, hpos⟩), hiN]
    obtain ⟨hc3, hpos3, hpres3⟩ := heap_shrink_spec hc hi harr_i
    have hkey3 := heap_shrink_key h i nodeindex.toNat
    have hsz3 := heap_shrink_size h i nodeindex.toNat
    have harr3 : ∀ x, x ≠ i → x ≠ h.size - 1 →
        (heap_shrink h i nodeindex.toNat).arr x = h.arr x := by
      intro x hx1 hx2
      rw [heap_shrink_arr]
      exact heap_swap_arr_other h hx1 hx2
    have harr3_i : i ≠ h.size - 1 →
        (heap_shrink h i nodeindex.toNat).arr i = h.arr (h.size - 1) := by
      intro hne
      rw [heap_shrink_arr]
      exact heap_swap_arr_fst h hne
    have hchain : ∀ j, j < h.size → heap_parent j = i → 0 < i →
        h.key (h.arr (heap_parent i)) ≤ h.key (h.arr j) := by
      intro j hj hpj h0i
      refine le_trans (ho i h0i hi) ?_
      have h0j : 0 < j := by
        rcases Nat.eq_zero_or_pos j with h0 | h0
        · exfalso
          rw [h0, show heap_parent 0 = 0 from rfl] at hpj
          omega
        · exact h0
      have := ho j h0j hj
      rw [hpj] at this
      exact this
    have hab : AboveBound (heap_shrink h i nodeindex.toNat) i := by
      intro j hjs hpj h0i
      rw [hsz3] at hjs
      have hj_gt : i < j := by
        have h0j : 0 < j := by
          rcases Nat.eq_zero_or_pos j with h0 | h0
          · exfalso
            rw [h0, show heap_parent 0 = 0 from rfl] at hpj
            omega
          · exact h0
        rw [← hpj]
        exact heap_parent_lt h0j
      have hpi_lt : heap_parent i < i := heap_parent_lt h0i
      rw [hkey3, harr3 (heap_parent i) (by omega) (by omega), harr3 j (by omega) (by omega)]
      exact hchain j (by omega) hpj h0i
    rw [hdel]
    by_cases hfix : i < (heap_shrink h i nodeindex.toNat).size
    · rw [if_pos hfix]
      rw [hsz3] at hfix
      by_cases hbub : 0 < i ∧ (heap_shrink h i nodeindex.toNat).key
            ((heap_shrink h i nodeindex.toNat).arr i) <
          (heap_shrink h i nodeindex.toNat).key
            ((heap_shrink h i nodeindex.toNat).arr (heap_parent i))
      · rw [if_pos hbub]
        obtain ⟨h0i, hklt⟩ := hbub
        have hpi_lt : heap_parent i < i := heap_parent_lt h0i
        have hklt' : h.key (h.arr (h.size - 1)) < h.key (h.arr (heap_parent i)) := by
          rw [hkey3, harr3_i (by omega), harr3 (heap_parent i) (by omega) (by omega)] at hklt
          exact hklt
        have hpe : PartialExcept (heap_shrink h i nodeindex.toNat) i := by
          intro j hj0 hjs hjne
          rw [hsz3] at hjs
          by_cases hpj : heap_parent j = i
          · rw [hkey3, hpj, harr3 j hjne (by omega), harr3_i (by omega)]
            refine le_trans (le_of_lt hklt') ?_
            exact hchain j (by omega) hpj h0i
          · have hpj_lt : heap_parent j < j := heap_parent_lt hj0
            rw [hkey3, harr3 j hjne (by omega), harr3 (heap_parent j) hpj (by omega)]
            exact ho j hj0 (by omega)
        have hord := bubble_up_ordered i (heap_shrink h i nodeindex.toNat)
          (by rw [hsz3]; exact hfix) hpe hab
        obtain ⟨hc4, hpres4⟩ := bubble_up_consistent hc3 (by rw [hsz3]; exact hfix)
        refine ⟨rfl, ⟨hc4, hord⟩, ?_, ?_, ?_, ?_⟩
        · show (bubble_up (heap_shrink h i nodeindex.toNat) i).size + 1 = h.size
          rw [bubble_up_size, hsz3]; omega
        · show (bubble_up (heap_shrink h i nodeindex.toNat) i).key = h.key
          rw [bubble_up_key, hkey3]
        · exact (hpres4 nodeindex.toNat).mpr hpos3
        · intro m hm
          exact (hpres4 m).trans (hpres3 m hm)
      · rw [if_neg hbub]
        have hpb : PartialBelow (heap_shrink h i nodeindex.toNat) i := by
          intro j hj0 hjs hpar
          rw [hsz3] at hjs
          by_cases hji : j = i
          · have h0i : 0 < i := by omega
            rcases not_and_or.mp hbub with hcc | hcc
            · exact absurd h0i hcc
            · rw [hji]
              exact le_of_not_lt hcc
          · have hpj_lt : heap_parent j < j := heap_parent_lt hj0
            rw [hkey3, harr3 j hji (by omega), harr3 (heap_parent j) hpar (by omega)]
            exact ho j hj0 (by omega)
        have hord := min_heapify_ordered ((heap_shrink h i nodeindex.toNat).size)
          (heap_shrink h i nodeindex.toNat) i (by omega) hpb hab
        obtain ⟨hc4, hpres4⟩ := min_heapify_consistent i hc3
        refine ⟨rfl, ⟨hc4, hord⟩, ?_, ?_, ?_, ?_⟩
        · show (min_heapify (heap_shrink h i nodeindex.toNat) i).size + 1 = h.size
          rw [min_heapify_size, hsz3]; omega
        · show (min_heapify (heap_shrink h i nodeindex.toNat) i).key = h.key
          rw [min_heapify_key, hkey3]
        · exact (hpres4 nodeindex.toNat).mpr hpos3
        · intro m hm
          exact (hpres4 m).trans (hpres3 m hm)
    · rw [if_neg hfix]
      rw [hsz3] at hfix
      have hlast : i = h.size - 1 := by omega
      have hord : HeapOrdered (heap_shrink h i nodeindex.toNat) := by
        intro j hj0 hjs
        rw [hsz3] at hjs
        have hpj_lt : heap_parent j < j := heap_parent_lt hj0
        rw [hkey3, harr3 j (by omega) (by omega), harr3 (heap_parent j) (by omega) (by omega)]
        exact ho j hj0 (by omega)
      exact ⟨rfl, ⟨hc3, hord⟩, by rw [hsz3]; omega, hkey3, hpos3, hpres3⟩
  · intro hg
    unfold heap_delete
    rw [if_pos hg]

/-! ## Scheduler state (hw1.c) -/

/-- `MAX_CUSTOMERS` in hw1.c (equal to the heap's `MAX_NODES`). -/
def MAX_CUSTOMERS : Nat := 1024

/-- `MAX_TOOLS` in hw1.c. -/
def MAX_TOOLS : Nat := 100

/-- hw1.c `CustomerState`. -/
inductive CustomerState where
  | RESTING
  | WAITING
  | USING
  | DELETED
deriving DecidableEq

/-- hw1.c `EventType`. -/
inductive EventType where
  | NONE
  | TOOL_ASSIGNED
  | TOOL_REMOVED
  | TOOL_COMPLETED
deriving DecidableEq

/-- hw1.c `Customer`.  `heap_index` is the customer-struct field of that
name (set once at allocation and never maintained afterwards), distinct
from the heap's own back-map `GLB[i].heap_index`, which lives in
`Heap.pos`. -/
structure Customer where
  customer_id : Int
  is_allocated : Bool
  state : CustomerState
  share : ℚ
  request_duration : Int
  remaining_duration : Int
  current_tool : Int
  session_start : Int
  wait_start : Int
  heap_index : Int
  event_pending : Bool
  event_type : EventType
  event_tool_id : Int
deriving DecidableEq

/-- hw1.c `ToolInfo` (synchronisation fields omitted). -/
structure ToolInfo where
  tool_id : Int
  total_usage : Int
  current_user : Int
  current_usage : Int
  session_start : Int
deriving DecidableEq

/-- One `printf` line of the scheduler's stdout log, in structured form:
event kind, `customer_id`, the `%d`-printed (truncated) share, and the
printed tool number. -/
structure LogEntry where
  ev : EventType
  customer_id : Int
  share : Int
  tool : Int
deriving DecidableEq

/-- The C cast `(int)x` applied to a double: truncation toward zero. -/
def truncQ (x : ℚ) : Int := Int.tdiv x.num (x.den : Int)

/-- The mutable scheduler region of hw1.c `SharedMemory` (mutexes and
condition variables carry no data and are omitted; `log` records the
stdout event lines in order). -/
structure Sched where
  customers : Nat → Customer
  free_customer_slots : Nat → Nat
  free_customer_count : Nat
  waiting_count : Int
  tools : Nat → ToolInfo
  num_tools : Nat
  total_customers : Int
  resting_customers : Int
  total_share : ℚ
  q : Int
  Q : Int
  heap : Heap
  log : List LogEntry

/-- Point update of the customer table. -/
def updC (s : Sched) (i : Nat) (c : Customer) : Sched :=
  { s with customers := fun x => if x = i then c else s.customers x }

/-- Point update of the tool table. -/
def updT (s : Sched) (i : Nat) (t : ToolInfo) : Sched :=
  { s with tools := fun x => if x = i then t else s.tools x }

/-- `LLONG_MAX`, the initial value of `min_usage` in `find_free_tool`. -/
def LLONG_MAX : Int := 9223372036854775807

/-! ## Scheduler operations (code/hw1.c) -/

/-- The loop of hw1.c `find_free_tool` after scanning tools `0..n-1`:
accumulator `(best_tool, min_usage)`. -/
def find_free_tool_scan (s : Sched) : Nat → Int × Int
  | 0 => (-1, LLONG_MAX)
  | n + 1 =>
    let acc := find_free_tool_scan s n
    let t := s.tools n
    if t.current_user = -1 ∧
        (t.total_usage < acc.2 ∨
          (t.total_usage = acc.2 ∧ (acc.1 = -1 ∨ (n : Int) < acc.1)))
    then ((n : Int), t.total_usage) else acc

/-- hw1.c `find_free_tool`. -/
def find_free_tool (s : Sched) : Int := (find_free_tool_scan s s.num_tools).1

/-- The loop of hw1.c `find_preemption_candidate` after scanning tools
`0..n-1`: accumulator `(candidate, max_usage)`, `max_usage` starting at 0. -/
def fpc_scan (s : Sched) : Nat → Int × Int
  | 0 => (-1, 0)
  | n + 1 =>
    let acc := fpc_scan s n
    let t := s.tools n
    if t.current_user ≠ -1 ∧
        (t.current_usage > acc.2 ∨
          (t.current_usage = acc.2 ∧ (acc.1 = -1 ∨ (n : Int) < acc.1)))
    then ((n : Int), t.current_usage) else acc

/-- hw1.c `find_preemption_candidate`: the scan picks the bound tool of
largest `current_usage`, then the holder-share and protected-quantum
filters apply. -/
def find_preemption_candidate (s : Sched) (new_share : ℚ) : Int :=
  let cand := (fpc_scan s s.num_tools).1
  if cand = -1 then -1
  else
    let user_idx := (s.tools cand.toNat).current_user
    let c := s.customers user_idx.toNat
    if c.share < new_share then -1
    else if (s.tools cand.toNat).current_usage < s.q then -1
    else cand

/-- hw1.c `assign_tool_to_customer` (code/hw1.c variant): if the customer
is Waiting it is first deleted from the queue through the heap's own
back-map (`GLB[customer_idx].heap_index != NIL`) and `waiting_count` is
decremented; then the binding is recorded and the event logged with the
current (unchanged) share. -/
def assign_tool_to_customer (now : Int) (s : Sched) (customer_idx : Nat) (tool_id : Nat) :
    Sched :=
  let c := s.customers customer_idx
  let s1 :=
    if c.state = CustomerState.WAITING then
      let s' :=
        if s.heap.pos customer_idx ≠ -1 then
          { s with heap := (heap_delete s.heap (customer_idx : Int)).2 }
        else s
      { s' with waiting_count := s'.waiting_count - 1 }
    else s
  let c1 :=
    { (s1.customers customer_idx) with
      state := CustomerState.USING
      current_tool := (tool_id : Int)
      session_start := now
      event_pending := true
      event_type := EventType.TOOL_ASSIGNED
      event_tool_id := (tool_id : Int) }
  let t1 :=
    { (s1.tools tool_id) with
      current_user := (customer_idx : Int)
      current_usage := 0
      session_start := now }
  { s1 with
    customers := fun x => if x = customer_idx then c1 else s1.customers x
    tools := fun x => if x = tool_id then t1 else s1.tools x
    log := s1.log ++
      [⟨EventType.TOOL_ASSIGNED, c1.customer_id, truncQ c1.share, (tool_id : Int)⟩] }

/-- hw1.c `remove_customer_from_tool`: share accounting with
`usage = now - session_start`, the event line logged with the updated
share, then the binding cleared and the event queued. -/
def remove_customer_from_tool (now : Int) (s : Sched) (customer_idx : Nat)
    (event : EventType) : Sched :=
  let c := s.customers customer_idx
  if c.current_tool = -1 then s
  else
    let ct := c.current_tool.toNat
    let t := s.tools ct
    let usage : Int := now - c.session_start
    let share' := c.share + (usage : ℚ)
    let c1 :=
      { c with
        share := share'
        current_tool := -1
        event_pending := true
        event_type := event
        event_tool_id := t.tool_id }
    let t1 :=
      { t with
        current_user := -1
        current_usage := 0
        total_usage := t.total_usage + usage }
    { s with
      customers := fun x => if x = customer_idx then c1 else s.customers x
      tools := fun x => if x = ct then t1 else s.tools x
      total_share := s.total_share + (usage : ℚ)
      log := s.log ++ [⟨event, c.customer_id, truncQ share', c.current_tool⟩] }

/-- hw1.c `assign_next_from_queue`. -/
def assign_next_from_queue (now : Int) (s : Sched) (tool_id : Nat) : Sched :=
  if s.heap.size ≤ 0 then s
  else
    let next_idx := (heap_pop s.heap).1
    let s1 := { s with heap := (heap_pop s.heap).2 }
    if next_idx ≠ -1 ∧ next_idx ≥ 0 then
      assign_tool_to_customer now s1 next_idx.toNat tool_id
    else s1

/-- The recurring enqueue sequence of hw1.c: set `state = WAITING` and
`wait_start`, write the node key `GLB[m].key = share`, `heap_insert(m)`,
and increment `waiting_count`.  (The C code reads `share` after the state
write; the state write does not touch `share`, so the value read here
from the pre-state is the same.) -/
def move_to_queue (now : Int) (s : Sched) (m : Nat) : Sched :=
  let s1 := updC s m
    { (s.customers m) with state := CustomerState.WAITING, wait_start := now }
  let s2 := { s1 with heap :=
    { s1.heap with key := fun x =>
        if x = m then (s.customers m).share else s1.heap.key x } }
  { s2 with
    heap := (heap_insert s2.heap (m : Int)).2.1
    waiting_count := s2.waiting_count + 1 }

/-- The entry bookkeeping of hw1.c `handle_request` (code/hw1.c variant):
a Resting requester leaves the Resting count, a Waiting requester is
removed from the queue (back-map delete) and from `waiting_count`. -/
def handle_request_entry (s : Sched) (customer_idx : Nat) : Sched :=
  let c := s.customers customer_idx
  if c.state = CustomerState.RESTING then
    { s with resting_customers := s.resting_customers - 1 }
  else if c.state = CustomerState.WAITING then
    let s' :=
      if s.heap.pos customer_idx ≠ -1 then
        { s with heap := (heap_delete s.heap (customer_idx : Int)).2 }
      else s
    { s' with waiting_count := s'.waiting_count - 1 }
  else s

/-- The placement rule of hw1.c `handle_request` (code/hw1.c variant),
after the entry bookkeeping and the duration fields are written: free
tool, else preemption candidate, else enqueue.  The runner-wake check
after the enqueue (`find_max_share_tool_above_q` plus
`pthread_cond_signal`) reads state but mutates nothing and is not part of
the state transition. -/
def handle_request_body (now : Int) (s2 : Sched) (customer_idx : Nat) : Sched :=
  let tool := find_free_tool s2
  if tool ≠ -1 then assign_tool_to_customer now s2 customer_idx tool.toNat
  else
    let tool2 := find_preemption_candidate s2 (s2.customers customer_idx).share
    if tool2 ≠ -1 then
      let old_user := (s2.tools tool2.toNat).current_user
      let s3 := remove_customer_from_tool now s2 old_user.toNat EventType.TOOL_REMOVED
      let s6 := move_to_queue now s3 old_user.toNat
      assign_tool_to_customer now s6 customer_idx tool2.toNat
    else
      move_to_queue now s2 customer_idx

/-- hw1.c `handle_request` (code/hw1.c variant): entry bookkeeping, the
duration fields, then the placement rule. -/
def handle_request (now : Int) (s : Sched) (customer_idx : Nat) (duration : Int) : Sched :=
  let s1 := handle_request_entry s customer_idx
  let s2 := updC s1 customer_idx
    { (s1.customers customer_idx) with
      request_duration := duration
      remaining_duration := duration }
  handle_request_body now s2 customer_idx

/-- hw1.c `handle_rest` (code/hw1.c variant). -/
def handle_rest (now : Int) (s : Sched) (customer_idx : Nat) : Sched :=
  let c := s.customers customer_idx
  if c.state = CustomerState.USING then
    let tool_id := c.current_tool
    let s1 := remove_customer_from_tool now s customer_idx EventType.TOOL_COMPLETED
    let s2 := if tool_id ≠ -1 then assign_next_from_queue now s1 tool_id.toNat else s1
    let s3 := updC s2 customer_idx
      { (s2.customers customer_idx) with state := CustomerState.RESTING }
    { s3 with resting_customers := s3.resting_customers + 1 }
  else if c.state = CustomerState.WAITING then
    let s1 :=
      if s.heap.pos customer_idx ≠ -1 then
        { s with heap := (heap_delete s.heap (customer_idx : Int)).2 }
      else s
    let s2 := { s1 with waiting_count := s1.waiting_count - 1 }
    let s3 := updC s2 customer_idx
      { (s2.customers customer_idx) with state := CustomerState.RESTING }
    { s3 with resting_customers := s3.resting_customers + 1 }
  else s

/-- hw1.c `allocate_customer`: the initial share is the population average
`total_share / total_customers` computed before the counters admit the
new arrival (0 when no customer is allocated); fields the C code does not
write (here: `event_tool_id`) keep the slot's previous contents. -/
def allocate_customer (s : Sched) (customer_id : Int) : Int × Sched :=
  if s.free_customer_count ≤ 0 then (-1, s)
  else
    let fc := s.free_customer_count - 1
    let idx := s.free_customer_slots fc
    let share : ℚ :=
      if s.total_customers > 0 then s.total_share / (s.total_customers : ℚ) else 0
    let c :=
      { (s.customers idx) with
        is_allocated := true
        customer_id := customer_id
        state := CustomerState.RESTING
        share := share
        request_duration := 0
        remaining_duration := 0
        current_tool := -1
        session_start := 0
        wait_start := 0
        heap_index := (idx : Int)
        event_pending := false
        event_type := EventType.NONE }
    ((idx : Int),
      { s with
        customers := fun x => if x = idx then c else s.customers x
        free_customer_count := fc
        total_customers := s.total_customers + 1
        resting_customers := s.resting_customers + 1
        total_share := s.total_share + share })

/-- hw1.c `deallocate_customer`. -/
def deallocate_customer (s : Sched) (customer_idx : Nat) : Sched :=
  let c := s.customers customer_idx
  if c.is_allocated = false then s
  else
    let s1 :=
      if c.state = CustomerState.RESTING then
        { s with resting_customers := s.resting_customers - 1 }
      else if c.state = CustomerState.WAITING then
        let s' :=
          if s.heap.pos customer_idx ≠ -1 then
            { s with heap := (heap_delete s.heap (customer_idx : Int)).2 }
          else s
        { s' with waiting_count := s'.waiting_count - 1 }
      else if c.state = CustomerState.USING then
        if 0 ≤ c.current_tool ∧ c.current_tool < (s.num_tools : Int) then
          updT s c.current_tool.toNat
            { (s.tools c.current_tool.toNat) with current_user := -1, current_usage := 0 }
        else s
      else s
    let s2 := updC s1 customer_idx
      { (s1.customers customer_idx) with
        is_allocated := false
        state := CustomerState.DELETED
        customer_id := -1
        current_tool := -1 }
    { s2 with
      total_customers := s2.total_customers - 1
      total_share := s2.total_share - c.share
      free_customer_slots := fun x =>
        if x = s2.free_customer_count then customer_idx else s2.free_customer_slots x
      free_customer_count := s2.free_customer_count + 1 }

/-- The preemption sequence shared by the two preempting branches of the
hw1.c tool runner: emit `TOOL_REMOVED` (with share accounting), move the
holder into the waiting queue, then pop the queue and bind the next
waiter. -/
def force_preempt (now : Int) (s : Sched) (cu : Nat) (tool_id : Nat) : Sched :=
  let s1 := remove_customer_from_tool now s cu EventType.TOOL_REMOVED
  let s2 := move_to_queue now s1 cu
  assign_next_from_queue now s2 tool_id

/-- One iteration of the hw1.c `tool_process` loop body for a bound tool
(the idle branch only waits on the condition variable and changes no
state).  All clock reads inside the critical section are modelled as the
single instant `now`. -/
def tool_tick (now : Int) (s : Sched) (tool_id : Nat) : Sched :=
  let t := s.tools tool_id
  if t.current_user = -1 then s
  else
    let cu := t.current_user.toNat
    let c := s.customers cu
    let elapsed : Int := now - t.session_start
    let remaining := c.request_duration - elapsed
    let rem' := if remaining < 0 then 0 else remaining
    let s0 :=
      { s with
        tools := fun x => if x = tool_id then { t with current_usage := elapsed } else s.tools x
        customers := fun x => if x = cu then { c with remaining_duration := rem' } else s.customers x }
    if rem' ≤ 0 then
      let s1 := remove_customer_from_tool now s0 cu EventType.TOOL_COMPLETED
      let s2 := updC s1 cu { (s1.customers cu) with state := CustomerState.RESTING }
      let s3 := { s2 with resting_customers := s2.resting_customers + 1 }
      assign_next_from_queue now s3 tool_id
    else if elapsed ≥ s.Q then
      if s0.heap.size > 0 then force_preempt now s0 cu tool_id
      else s0
    else if elapsed ≥ s.q ∧ s0.heap.size > 0 then
      let min_idx := s0.heap.arr 0
      if min_idx < MAX_CUSTOMERS then
        if (s0.customers min_idx).share < (s0.customers cu).share then
          force_preempt now s0 cu tool_id
        else s0
      else s0
    else s0

/-! ## Event line formatting (code/hw1.c) -/

/-- The `printf` lines of `assign_tool_to_customer` /
`remove_customer_from_tool` (scheduler stdout), rendered from a
structured log entry.  `remove_customer_from_tool` prints the "removed"
phrasing exactly for `EVENT_TOOL_REMOVED` and the "leaves" phrasing for
every other event value. -/
def stdout_line (e : LogEntry) : String :=
  match e.ev with
  | EventType.TOOL_ASSIGNED =>
      "Customer " ++ toString e.customer_id ++ " with share " ++ toString e.share ++
        " is assigned to the tool " ++ toString e.tool ++ ".\n"
  | EventType.TOOL_REMOVED =>
      "Customer " ++ toString e.customer_id ++ " with share " ++ toString e.share ++
        " is removed from the tool " ++ toString e.tool ++ ".\n"
  | _ =>
      "Customer " ++ toString e.customer_id ++ " with share " ++ toString e.share ++
        " leaves the tool " ++ toString e.tool ++ ".\n"

/-- The `snprintf` lines of `agent_notify_thread` (the event forwarder),
built from the snapshot it takes under the mutex: event type, customer
id, `(int)c->share`, and `event_tool_id`.  `EVENT_NONE` matches no branch
and leaves the buffer untouched (rendered here as the empty line). -/
def forwarder_line (ev : EventType) (customer_id share tool_id : Int) : String :=
  match ev with
  | EventType.TOOL_ASSIGNED =>
      "Customer " ++ toString customer_id ++ " with share " ++ toString share ++
        " is assigned to the tool " ++ toString tool_id ++ ".\n"
  | EventType.TOOL_REMOVED =>
      "Customer " ++ toString customer_id ++ " with share " ++ toString share ++
        " is removed from the tool " ++ toString tool_id ++ ".\n"
  | EventType.TOOL_COMPLETED =>
      "Customer " ++ toString customer_id ++ " with share " ++ toString share ++
        " leaves the tool " ++ toString tool_id ++ ".\n"
  | EventType.NONE => ""

/-- The snapshot `agent_notify_thread` takes of customer `i`'s event slot
and share, rendered to the line it sends on the socket. -/
def forwarder_output (s : Sched) (i : Nat) : String :=
  forwarder_line (s.customers i).event_type (s.customers i).customer_id
    (truncQ (s.customers i).share) (s.customers i).event_tool_id

/-! ## The test_extract variant (hw1_submission/test_extract/hw1/hw1.c) -/

/-- test_extract `find_free_tool`: strict `<` only, no tie-break clause. -/
def find_free_tool_scan_te (s : Sched) : Nat → Int × Int
  | 0 => (-1, LLONG_MAX)
  | n + 1 =>
    let acc := find_free_tool_scan_te s n
    let t := s.tools n
    if t.current_user = -1 ∧ t.total_usage < acc.2
    then ((n : Int), t.total_usage) else acc

/-- test_extract `find_free_tool`. -/
def find_free_tool_te (s : Sched) : Int := (find_free_tool_scan_te s s.num_tools).1

/-- test_extract `find_preemption_candidate` scan: strict `>` only. -/
def fpc_scan_te (s : Sched) : Nat → Int × Int
  | 0 => (-1, 0)
  | n + 1 =>
    let acc := fpc_scan_te s n
    let t := s.tools n
    if t.current_user ≠ -1 ∧ t.current_usage > acc.2
    then ((n : Int), t.current_usage) else acc

/-- test_extract `find_preemption_candidate`. -/
def find_preemption_candidate_te (s : Sched) (new_share : ℚ) : Int :=
  let cand := (fpc_scan_te s s.num_tools).1
  if cand = -1 then -1
  else
    let user_idx := (s.tools cand.toNat).current_user
    let c := s.customers user_idx.toNat
    if c.share < new_share then -1
    else if (s.tools cand.toNat).current_usage < s.q then -1
    else cand

/-- test_extract `remove_customer_from_tool`: the state effects coincide
with the code/hw1.c variant; only its `printf` format (`%.0f`) differs,
and the variant's stdout is not modelled, so the log is left unchanged. -/
def remove_customer_from_tool_te (now : Int) (s : Sched) (customer_idx : Nat)
    (event : EventType) : Sched :=
  let c := s.customers customer_idx
  if c.current_tool = -1 then s
  else
    let ct := c.current_tool.toNat
    let t := s.tools ct
    let usage : Int := now - c.session_start
    let c1 :=
      { c with
        share := c.share + (usage : ℚ)
        current_tool := -1
        event_pending := true
        event_type := event
        event_tool_id := t.tool_id }
    let t1 :=
      { t with
        current_user := -1
        current_usage := 0
        total_usage := t.total_usage + usage }
    { s with
      customers := fun x => if x = customer_idx then c1 else s.customers x
      tools := fun x => if x = ct then t1 else s.tools x
      total_share := s.total_share + (usage : ℚ) }

/-- test_extract `assign_tool_to_customer`: binds first, then attempts the
waiting-queue removal guarded by `c->heap_index != -1 &&
c->heap_index < heap_size` - a test on the customer-struct field
`heap_index` (frozen at allocation) against the current queue size,
not on the heap's own back-map. -/
def assign_tool_to_customer_te (now : Int) (s : Sched) (customer_idx : Nat)
    (tool_id : Nat) : Sched :=
  let c := s.customers customer_idx
  let c1 : Customer :=
    { c with
      state := CustomerState.USING
      current_tool := (tool_id : Int)
      session_start := now }
  let t1 : ToolInfo :=
    { (s.tools tool_id) with
      current_user := (customer_idx : Int)
      current_usage := 0
      session_start := now }
  let s1 : Sched :=
    { s with
      customers := fun x => if x = customer_idx then c1 else s.customers x
      tools := fun x => if x = tool_id then t1 else s.tools x }
  let s2 : Sched :=
    if c1.heap_index ≠ -1 ∧ c1.heap_index < Int.ofNat s1.heap.size then
      { s1 with
        heap := (heap_delete s1.heap c1.heap_index).2
        waiting_count := s1.waiting_count - 1 }
    else s1
  updC s2 customer_idx
    { (s2.customers customer_idx) with
      event_pending := true
      event_type := EventType.TOOL_ASSIGNED
      event_tool_id := (tool_id : Int) }

/-- test_extract `handle_request`: on entry only a Resting requester is
accounted for; a Waiting requester is not removed from the queue. -/
def handle_request_te (now : Int) (s : Sched) (customer_idx : Nat) (duration : Int) :
    Sched :=
  let c := s.customers customer_idx
  let s1 :=
    if c.state = CustomerState.RESTING then
      { s with resting_customers := s.resting_customers - 1 }
    else s
  let s2 := updC s1 customer_idx
    { (s1.customers customer_idx) with
      request_duration := duration
      remaining_duration := duration }
  let tool := find_free_tool_te s2
  if tool ≠ -1 then assign_tool_to_customer_te now s2 customer_idx tool.toNat
  else
    let tool2 := find_preemption_candidate_te s2 (s2.customers customer_idx).share
    if tool2 ≠ -1 then
      let old_user := (s2.tools tool2.toNat).current_user
      let s3 := remove_customer_from_tool_te now s2 old_user.toNat EventType.TOOL_REMOVED
      let s4 := updC s3 old_user.toNat
        { (s3.customers old_user.toNat) with
          state := CustomerState.WAITING
          wait_start := now }
      let s5 := { s4 with heap :=
        { s4.heap with key := fun x =>
            if x = old_user.toNat then (s4.customers old_user.toNat).share
            else s4.heap.key x } }
      let s6 := { s5 with
        heap := (heap_insert s5.heap old_user).2.1
        waiting_count := s5.waiting_count + 1 }
      assign_tool_to_customer_te now s6 customer_idx tool2.toNat
    else
      let s3 := updC s2 customer_idx
        { (s2.customers customer_idx) with
          state := CustomerState.WAITING
          wait_start := now }
      let s4 := { s3 with heap :=
        { s3.heap with key := fun x =>
            if x = customer_idx then (s3.customers customer_idx).share
            else s3.heap.key x } }
      { s4 with
        heap := (heap_insert s4.heap (customer_idx : Int)).2.1
        waiting_count := s4.waiting_count + 1 }

/-! ## Initial state and small projection lemmas -/

/-- hw1.c `setup_shared_memory`: the scheduler region after `memset(0)`
and field initialisation (tools beyond `k` keep their zeroed contents). -/
def setup_shared_memory (q Q : Int) (k : Nat) : Sched :=
  { customers := fun _ =>
      { customer_id := -1, is_allocated := false, state := CustomerState.DELETED,
        share := 0, request_duration := 0, remaining_duration := 0, current_tool := -1,
        session_start := 0, wait_start := 0, heap_index := -1, event_pending := false,
        event_type := EventType.NONE, event_tool_id := 0 }
    free_customer_slots := fun i => i
    free_customer_count := MAX_CUSTOMERS
    waiting_count := 0
    tools := fun i =>
      if i < k then
        { tool_id := (i : Int), total_usage := 0, current_user := -1,
          current_usage := 0, session_start := 0 }
      else
        { tool_id := 0, total_usage := 0, current_user := 0,
          current_usage := 0, session_start := 0 }
    num_tools := k
    total_customers := 0
    resting_customers := 0
    total_share := 0
    q := q
    Q := Q
    heap := { key := fun _ => 0, pos := fun _ => -1, arr := fun _ => 0, size := 0 }
    log := [] }

theorem updC_customers_self (s : Sched) (i : Nat) (c : Customer) :
    (updC s i c).customers i = c := by simp [updC]

theorem updC_customers_other (s : Sched) {i x : Nat} (c : Customer) (h : x ≠ i) :
    (updC s i c).customers x = s.customers x := by simp [updC, h]

/-- The share assigned by `allocate_customer` on a non-full table: the
population average before the new arrival is counted. -/
theorem allocate_customer_spec (s : Sched) (cid : Int)
    (hfree : 0 < s.free_customer_count) :
    (allocate_customer s cid).1 =
      ((s.free_customer_slots (s.free_customer_count - 1) : Nat) : Int) ∧
    ((allocate_customer s cid).2.customers
        (s.free_customer_slots (s.free_customer_count - 1))).share =
      (if s.total_customers > 0 then s.total_share / (s.total_customers : ℚ) else 0) ∧
    (allocate_customer s cid).2.total_customers = s.total_customers + 1 ∧
    (allocate_customer s cid).2.total_share = s.total_share +
      (if s.total_customers > 0 then s.total_share / (s.total_customers : ℚ) else 0) := by
  simp only [allocate_customer]
  rw [if_neg (by omega)]
  refine ⟨rfl, ?_, rfl, rfl⟩
  simp

/-- **C4.** A newly allocated customer's initial share is
`total_share / total_customers` evaluated before the arrival is added to
the counters (the population average at arrival time), and `0` when no
customer is allocated. -/
theorem claim_C4 (s : Sched) (cid : Int) (hfree : 0 < s.free_customer_count) :
    ((allocate_customer s cid).2.customers
        (s.free_customer_slots (s.free_customer_count - 1))).share =
      (if s.total_customers > 0 then s.total_share / (s.total_customers : ℚ) else 0) ∧
    (allocate_customer s cid).2.total_customers = s.total_customers + 1 ∧
    (allocate_customer s cid).2.total_share = s.total_share +
      (if s.total_customers > 0 then s.total_share / (s.total_customers : ℚ) else 0) :=
  (allocate_customer_spec s cid hfree).2

/-- **C4 witness.** On the freshly initialised region (no allocated
customer) the first arrival gets share `0`. -/
theorem claim_C4_witness :
    0 < (setup_shared_memory 100 500 2).free_customer_count ∧
    ((allocate_customer (setup_shared_memory 100 500 2) 42).2.customers
        ((setup_shared_memory 100 500 2).free_customer_slots
          ((setup_shared_memory 100 500 2).free_customer_count - 1))).share =
      (if (setup_shared_memory 100 500 2).total_customers > 0 then
        (setup_shared_memory 100 500 2).total_share /
          ((setup_shared_memory 100 500 2).total_customers : ℚ) else 0) :=
  ⟨by decide, (claim_C4 (setup_shared_memory 100 500 2) 42 (by decide)).1⟩

/-- Counter effects of `deallocate_customer` on an allocated customer:
common to all state branches. -/
theorem deallocate_customer_spec (s : Sched) (idx : Nat)
    (halloc : (s.customers idx).is_allocated = true) :
    (deallocate_customer s idx).total_customers = s.total_customers - 1 ∧
    (deallocate_customer s idx).total_share = s.total_share - (s.customers idx).share ∧
    (deallocate_customer s idx).free_customer_count = s.free_customer_count + 1 ∧
    (deallocate_customer s idx).free_customer_slots
      ((deallocate_customer s idx).free_customer_count - 1) = idx := by
  simp only [deallocate_customer]
  rw [if_neg (by simp [halloc])]
  split_ifs <;> simp [updC, updT]

/-- **C9.** Deallocation removes the departing customer's entire
accumulated share from `total_share` and decrements `total_customers`;
a customer allocated afterwards therefore receives the average over only
the still-allocated customers. -/
theorem claim_C9 (s : Sched) (idx : Nat) (cid : Int)
    (halloc : (s.customers idx).is_allocated = true) :
    (deallocate_customer s idx).total_customers = s.total_customers - 1 ∧
    (deallocate_customer s idx).total_share = s.total_share - (s.customers idx).share ∧
    ((allocate_customer (deallocate_customer s idx) cid).2.customers
        ((deallocate_customer s idx).free_customer_slots
          ((deallocate_customer s idx).free_customer_count - 1))).share =
      (if s.total_customers - 1 > 0 then
        (s.total_share - (s.customers idx).share) / ((s.total_customers - 1 : Int) : ℚ)
      else 0) := by
  obtain ⟨h1, h2, h3, h4⟩ := deallocate_customer_spec s idx halloc
  obtain ⟨-, hsh, -, -⟩ := allocate_customer_spec (deallocate_customer s idx) cid (by omega)
  refine ⟨h1, h2, ?_⟩
  rw [hsh, h1, h2]

/-- A state with one allocated Resting customer (slot 0, share 50). -/
def W9 : Sched :=
  { setup_shared_memory 100 500 2 with
    customers := fun x =>
      if x = 0 then
        { customer_id := 7, is_allocated := true, state := CustomerState.RESTING,
          share := 50, request_duration := 0, remaining_duration := 0, current_tool := -1,
          session_start := 0, wait_start := 0, heap_index := 0, event_pending := false,
          event_type := EventType.NONE, event_tool_id := 0 }
      else (setup_shared_memory 100 500 2).customers x
    total_customers := 1
    resting_customers := 1
    total_share := 50
    free_customer_count := 1023 }

/-- **C9 witness.** Deallocating the only customer of `W9` drops
`total_customers` to 0 and removes its share from `total_share`. -/
theorem claim_C9_witness :
    (W9.customers 0).is_allocated = true ∧
    (deallocate_customer W9 0).total_customers = W9.total_customers - 1 ∧
    (deallocate_customer W9 0).total_share = W9.total_share - (W9.customers 0).share :=
  ⟨by decide, (claim_C9 W9 0 42 (by decide)).1, (claim_C9 W9 0 42 (by decide)).2.1⟩

/-- Full effect of `remove_customer_from_tool` on a bound customer. -/
theorem remove_customer_from_tool_spec (now : Int) (s : Sched) (idx : Nat) (ev : EventType)
    (hb : (s.customers idx).current_tool ≠ -1) :
    (remove_customer_from_tool now s idx ev).customers idx =
      { s.customers idx with
        share := (s.customers idx).share + ((now - (s.customers idx).session_start : Int) : ℚ)
        current_tool := -1
        event_pending := true
        event_type := ev
        event_tool_id := (s.tools (s.customers idx).current_tool.toNat).tool_id } ∧
    (∀ m, m ≠ idx → (remove_customer_from_tool now s idx ev).customers m = s.customers m) ∧
    (remove_customer_from_tool now s idx ev).tools (s.customers idx).current_tool.toNat =
      { s.tools (s.customers idx).current_tool.toNat with
        current_user := -1
        current_usage := 0
        total_usage := (s.tools (s.customers idx).current_tool.toNat).total_usage +
          (now - (s.customers idx).session_start) } ∧
    (∀ u, u ≠ (s.customers idx).current_tool.toNat →
      (remove_customer_from_tool now s idx ev).tools u = s.tools u) ∧
    (remove_customer_from_tool now s idx ev).total_share =
      s.total_share + ((now - (s.customers idx).session_start : Int) : ℚ) ∧
    (remove_customer_from_tool now s idx ev).log = s.log ++
      [⟨ev, (s.customers idx).customer_id,
        truncQ ((s.customers idx).share + ((now - (s.customers idx).session_start : Int) : ℚ)),
        (s.customers idx).current_tool⟩] ∧
    (remove_customer_from_tool now s idx ev).heap = s.heap ∧
    (remove_customer_from_tool now s idx ev).waiting_count = s.waiting_count ∧
    (remove_customer_from_tool now s idx ev).resting_customers = s.resting_customers ∧
    (remove_customer_from_tool now s idx ev).num_tools = s.num_tools ∧
    (remove_customer_from_tool now s idx ev).q = s.q ∧
    (remove_customer_from_tool now s idx ev).Q = s.Q ∧
    (remove_customer_from_tool now s idx ev).total_customers = s.total_customers := by
  simp only [remove_customer_from_tool]
  rw [if_neg hb]
  refine ⟨by simp, fun m hm => by simp [hm], by simp, fun u hu => by simp [hu],
    rfl, rfl, rfl, rfl, rfl, rfl, rfl, rfl, rfl⟩

/-- **C5.** On every unbind of a bound customer, with
`delta = now - session_start`: the customer's share grows by exactly
`delta`, `total_share` grows by exactly `delta`, the tool's `total_usage`
grows by exactly `delta`, and the logged event line carries the share
value after this update. -/
theorem claim_C5 (now : Int) (s : Sched) (idx : Nat) (ev : EventType)
    (hb : (s.customers idx).current_tool ≠ -1) :
    ((remove_customer_from_tool now s idx ev).customers idx).share =
      (s.customers idx).share + ((now - (s.customers idx).session_start : Int) : ℚ) ∧
    (remove_customer_from_tool now s idx ev).total_share =
      s.total_share + ((now - (s.customers idx).session_start : Int) : ℚ) ∧
    ((remove_customer_from_tool now s idx ev).tools
        (s.customers idx).current_tool.toNat).total_usage =
      (s.tools (s.customers idx).current_tool.toNat).total_usage +
        (now - (s.customers idx).session_start) ∧
    (remove_customer_from_tool now s idx ev).log = s.log ++
      [⟨ev, (s.customers idx).customer_id,
        truncQ ((s.customers idx).share + ((now - (s.customers idx).session_start : Int) : ℚ)),
        (s.customers idx).current_tool⟩] := by
  obtain ⟨h1, h2, h3, h4, h5, h6, -⟩ := remove_customer_from_tool_spec now s idx ev hb
  exact ⟨by rw [h1], h5, by rw [h3], h6⟩

/-- A state with customer 0 bound to tool 0 (session began at t=1000). -/
def W5 : Sched :=
  { setup_shared_memory 100 500 2 with
    customers := fun x =>
      if x = 0 then
        { customer_id := 7, is_allocated := true, state := CustomerState.USING,
          share := 10, request_duration := 200, remaining_duration := 150, current_tool := 0,
          session_start := 1000, wait_start := 0, heap_index := 0, event_pending := false,
          event_type := EventType.NONE, event_tool_id := 0 }
      else (setup_shared_memory 100 500 2).customers x
    tools := fun i =>
      if i = 0 then
        { tool_id := 0, total_usage := 5, current_user := 0,
          current_usage := 50, session_start := 1000 }
      else (setup_shared_memory 100 500 2).tools i
    total_customers := 1
    resting_customers := 0
    total_share := 10
    free_customer_count := 1023 }

/-- **C5 witness.** Unbinding customer 0 of `W5` at t=1050 adds the
50 ms delta to its share and to `total_share`. -/
theorem claim_C5_witness :
    (W5.customers 0).current_tool ≠ -1 ∧
    ((remove_customer_from_tool 1050 W5 0 EventType.TOOL_COMPLETED).customers 0).share =
      (W5.customers 0).share + ((1050 - (W5.customers 0).session_start : Int) : ℚ) :=
  ⟨by decide, (claim_C5 1050 W5 0 EventType.TOOL_COMPLETED (by decide)).1⟩

/-- Full effect of `assign_tool_to_customer` (code/hw1.c variant). -/
theorem assign_tool_to_customer_spec (now : Int) (s : Sched) (idx tid : Nat) :
    (assign_tool_to_customer now s idx tid).customers idx =
      { s.customers idx with
        state := CustomerState.USING
        current_tool := (tid : Int)
        session_start := now
        event_pending := true
        event_type := EventType.TOOL_ASSIGNED
        event_tool_id := (tid : Int) } ∧
    (∀ m, m ≠ idx → (assign_tool_to_customer now s idx tid).customers m = s.customers m) ∧
    (assign_tool_to_customer now s idx tid).tools tid =
      { s.tools tid with
        current_user := (idx : Int)
        current_usage := 0
        session_start := now } ∧
    (∀ u, u ≠ tid → (assign_tool_to_customer now s idx tid).tools u = s.tools u) ∧
    (assign_tool_to_customer now s idx tid).log = s.log ++
      [⟨EventType.TOOL_ASSIGNED, (s.customers idx).customer_id,
        truncQ (s.customers idx).share, (tid : Int)⟩] ∧
    (assign_tool_to_customer now s idx tid).total_share = s.total_share ∧
    (assign_tool_to_customer now s idx tid).resting_customers = s.resting_customers ∧
    (assign_tool_to_customer now s idx tid).total_customers = s.total_customers ∧
    (assign_tool_to_customer now s idx tid).num_tools = s.num_tools ∧
    (assign_tool_to_customer now s idx tid).q = s.q ∧
    (assign_tool_to_customer now s idx tid).Q = s.Q ∧
    ((s.customers idx).state ≠ CustomerState.WAITING →
      (assign_tool_to_customer now s idx tid).heap = s.heap ∧
      (assign_tool_to_customer now s idx tid).waiting_count = s.waiting_count) ∧
    ((s.customers idx).state = CustomerState.WAITING →
      (assign_tool_to_customer now s idx tid).waiting_count = s.waiting_count - 1 ∧
      (assign_tool_to_customer now s idx tid).heap =
        (if s.heap.pos idx ≠ -1 then (heap_delete s.heap (idx : Int)).2 else s.heap)) := by
  simp only [assign_tool_to_customer]
  by_cases hw : (s.customers idx).state = CustomerState.WAITING
  · rw [if_pos hw]
    by_cases hp : s.heap.pos idx ≠ -1
    · rw [if_pos hp]
      refine ⟨by simp, fun m hm => by simp [hm], by simp, fun u hu => by simp [hu],
        by simp, rfl, rfl, rfl, rfl, rfl, rfl,
        fun h => absurd hw h, fun _ => ⟨rfl, by rw [if_pos hp]⟩⟩
    · rw [if_neg hp]
      refine ⟨by simp, fun m hm => by simp [hm], by simp, fun u hu => by simp [hu],
        by simp, rfl, rfl, rfl, rfl, rfl, rfl,
        fun h => absurd hw h, fun _ => ⟨rfl, by rw [if_neg hp]⟩⟩
  · rw [if_neg hw]
    refine ⟨by simp, fun m hm => by simp [hm], by simp, fun u hu => by simp [hu],
      by simp, rfl, rfl, rfl, rfl, rfl, rfl,
      fun _ => ⟨rfl, rfl⟩, fun h => absurd h hw⟩

/-- **C8.** For each scheduler event the line the event forwarder writes
to the customer's socket is character-identical to the line the
scheduler wrote to its stdout for that event, and the share field in
both is the share truncated to an integer; shown for the assignment
event and for the removal/completion events (whose `event_tool_id` is
the `tool_id` of the tool the customer held). -/
theorem claim_C8 (now : Int) (s : Sched) (idx tid : Nat) (ev : EventType)
    (hb : (s.customers idx).current_tool ≠ -1)
    (htool : (s.tools (s.customers idx).current_tool.toNat).tool_id =
      (s.customers idx).current_tool)
    (hev : ev = EventType.TOOL_REMOVED ∨ ev = EventType.TOOL_COMPLETED) :
    (∃ e : LogEntry,
      (assign_tool_to_customer now s idx tid).log = s.log ++ [e] ∧
      forwarder_output (assign_tool_to_customer now s idx tid) idx = stdout_line e ∧
      e.share = truncQ ((assign_tool_to_customer now s idx tid).customers idx).share) ∧
    (∃ e : LogEntry,
      (remove_customer_from_tool now s idx ev).log = s.log ++ [e] ∧
      forwarder_output (remove_customer_from_tool now s idx ev) idx = stdout_line e ∧
      e.share = truncQ ((remove_customer_from_tool now s idx ev).customers idx).share) := by
  constructor
  · obtain ⟨h1, -, -, -, h5, -⟩ := assign_tool_to_customer_spec now s idx tid
    refine ⟨⟨EventType.TOOL_ASSIGNED, (s.customers idx).customer_id,
      truncQ (s.customers idx).share, (tid : Int)⟩, h5, ?_, by rw [h1]⟩
    rw [forwarder_output, h1]
    rfl
  · obtain ⟨h1, -, -, -, -, h6, -⟩ := remove_customer_from_tool_spec now s idx ev hb
    refine ⟨⟨ev, (s.customers idx).customer_id,
      truncQ ((s.customers idx).share +
        ((now - (s.customers idx).session_start : Int) : ℚ)),
      (s.customers idx).current_tool⟩, h6, ?_, by rw [h1]⟩
    rw [forwarder_output, h1]
    rcases hev with h | h <;> rw [h] <;> simp [forwarder_line, stdout_line, htool]

/-- **C8 witness.** On `W5` (customer 0 bound to tool 0) the forwarded
completion line equals the stdout line. -/
theorem claim_C8_witness :
    (W5.customers 0).current_tool ≠ -1 ∧
    ∃ e : LogEntry,
      (remove_customer_from_tool 1050 W5 0 EventType.TOOL_COMPLETED).log = W5.log ++ [e] ∧
      forwarder_output (remove_customer_from_tool 1050 W5 0 EventType.TOOL_COMPLETED) 0 =
        stdout_line e ∧
      e.share = truncQ
        ((remove_customer_from_tool 1050 W5 0 EventType.TOOL_COMPLETED).customers 0).share :=
  ⟨by decide,
    (claim_C8 1050 W5 0 1 EventType.TOOL_COMPLETED (by decide) (by decide) (Or.inr rfl)).2⟩

/-- The Resting branch of `handle_rest` is a no-op on the whole state. -/
theorem handle_rest_resting (now : Int) (s : Sched) (idx : Nat)
    (h : (s.customers idx).state = CustomerState.RESTING) :
    handle_rest now s idx = s := by
  simp [handle_rest, h]

/-- `handle_rest` on a Deleted slot takes no branch. -/
theorem handle_rest_deleted (now : Int) (s : Sched) (idx : Nat)
    (h : (s.customers idx).state = CustomerState.DELETED) :
    handle_rest now s idx = s := by
  simp [handle_rest, h]

/-- After `handle_rest`, the customer is Resting - unless the slot was
Deleted, in which case nothing happened. -/
theorem handle_rest_state_after (now : Int) (s : Sched) (idx : Nat) :
    ((handle_rest now s idx).customers idx).state = CustomerState.RESTING ∨
    ((s.customers idx).state = CustomerState.DELETED ∧ handle_rest now s idx = s) := by
  rcases h : (s.customers idx).state with _ | _ | _ | _
  · left
    rw [handle_rest_resting now s idx h, h]
  · left
    simp [handle_rest, h, updC]
  · left
    simp [handle_rest, h, updC]
  · right
    exact ⟨rfl, handle_rest_deleted now s idx h⟩

/-- **C6.** `handle_rest` is idempotent: the Resting branch is a no-op on
the entire scheduler state (so no counter is touched twice), and a second
REST right after a first one changes nothing. -/
theorem claim_C6 (now now2 : Int) (s : Sched) (idx : Nat) :
    ((s.customers idx).state = CustomerState.RESTING → handle_rest now s idx = s) ∧
    handle_rest now2 (handle_rest now s idx) idx = handle_rest now s idx := by
  refine ⟨handle_rest_resting now s idx, ?_⟩
  rcases handle_rest_state_after now s idx with h | ⟨hd, heq⟩
  · exact handle_rest_resting now2 _ idx h
  · rw [heq]
    exact handle_rest_deleted now2 s idx hd

/-- **C10.** `heap_insert` on a node whose key is 0.0 succeeds: it
returns 0, prints only the "does not appear to be initialized"
diagnostic, and inserts the node with the heap invariant restored; and
`-1` is returned exactly when the heap is full, the index is out of
range, or the node is already in the heap. -/
theorem claim_C10 (h : Heap) (n : Int) (hwf : HeapWf h) :
    ((0 ≤ n ∧ n < (MAX_NODES : Int) ∧ h.pos n.toNat = -1 ∧ h.key n.toNat = 0) →
      (heap_insert h n).1 = 0 ∧
      (heap_insert h n).2.2 = ["HeapError: Node does not appear to be initialized."] ∧
      (heap_insert h n).2.1.pos n.toNat ≠ -1 ∧
      HeapWf (heap_insert h n).2.1 ∧
      (heap_insert h n).2.1.size = h.size + 1) ∧
    ((heap_insert h n).1 = -1 ↔
      (h.size ≥ MAX_NODES ∨ n < 0 ∨ n ≥ (MAX_NODES : Int) ∨ h.pos n.toNat ≠ -1)) := by
  constructor
  · rintro ⟨h0, hM, hpos, hkey⟩
    have hn' : n.toNat < MAX_NODES := by omega
    have hsz := heapConsistent_size_lt hwf.1 hn' hpos
    obtain ⟨hwf', hsizeg, -, hposg, -⟩ := heap_insert_go_spec hwf hn' hpos hsz
    rw [show n = ((n.toNat : Nat) : Int) from (Int.toNat_of_nonneg h0).symm,
      heap_insert_eq_go hwf.1 hn' hpos]
    exact ⟨rfl, by rw [if_pos hkey], hposg, hwf', hsizeg⟩
  · constructor
    · intro hres
      by_contra hnot
      push_neg at hnot
      obtain ⟨h1, h2, h3, h4⟩ := hnot
      have hn' : n.toNat < MAX_NODES := by omega
      rw [show n = ((n.toNat : Nat) : Int) from (Int.toNat_of_nonneg (by omega)).symm,
        heap_insert_eq_go hwf.1 hn' h4] at hres
      simp at hres
    · intro hor
      simp only [heap_insert]
      by_cases hfull : h.size ≥ MAX_NODES
      · rw [if_pos hfull]
      · rw [if_neg hfull]
        by_cases hrange : n < 0 ∨ n ≥ (MAX_NODES : Int)
        · rw [if_pos hrange]
        · rw [if_neg hrange]
          have hpos : h.pos n.toNat ≠ -1 := by tauto
          rw [if_pos hpos]

/-- The empty heap of the freshly initialised region. -/
def WE : Heap := { key := fun _ => 0, pos := fun _ => -1, arr := fun _ => 0, size := 0 }

theorem WE_wf : HeapWf WE := by
  refine ⟨⟨by decide, by decide, by decide, ?_⟩, ?_⟩
  · intro n hn
    exact absurd rfl hn
  · intro j hj0 hjs
    have hz : j < 0 := hjs
    omega

/-- **C10 witness.** Inserting node 5 (key 0) into the empty heap
returns 0 with only the advisory diagnostic. -/
theorem claim_C10_witness :
    (0 ≤ (5 : Int) ∧ (5 : Int) < (MAX_NODES : Int) ∧ WE.pos (5 : Int).toNat = -1 ∧
      WE.key (5 : Int).toNat = 0) ∧
    (heap_insert WE 5).1 = 0 ∧
    (heap_insert WE 5).2.2 = ["HeapError: Node does not appear to be initialized."] ∧
    (heap_insert WE 5).2.1.pos (5 : Int).toNat ≠ -1 ∧
    HeapWf (heap_insert WE 5).2.1 ∧
    (heap_insert WE 5).2.1.size = WE.size + 1 :=
  ⟨⟨by decide, by decide, by decide, rfl⟩,
    (claim_C10 WE 5 WE_wf).1 ⟨by decide, by decide, by decide, rfl⟩⟩

/-- **C7.** `heap_delete(id)` on a well-formed heap containing `id`
removes exactly `id`: afterwards `id`'s back-pointer is NIL, every other
node's presence and every key is unchanged, the size drops by one, and
the min-heap and back-map invariants hold again; on a node not in the
heap it returns -1 and leaves the heap unchanged. -/
theorem claim_C7 (h : Heap) (id : Int) (hwf : HeapWf h) :
    ((0 ≤ id ∧ id < (MAX_NODES : Int) ∧ h.pos id.toNat ≠ -1) →
      (heap_delete h id).1 = 0 ∧
      HeapWf (heap_delete h id).2 ∧
      (heap_delete h id).2.size + 1 = h.size ∧
      (heap_delete h id).2.key = h.key ∧
      (heap_delete h id).2.pos id.toNat = -1 ∧
      (∀ m, m ≠ id.toNat →
        ((heap_delete h id).2.pos m = -1 ↔ h.pos m = -1))) ∧
    ((id < 0 ∨ id ≥ (MAX_NODES : Int) ∨ h.pos id.toNat = -1) →
      heap_delete h id = (-1, h)) :=
  heap_delete_spec h id hwf

/-- A two-node well-formed heap: node 3 (key 3) at the root, node 6
(key 6) below it. -/
def WH : Heap :=
  { key := fun x => (x : ℚ)
    pos := fun x => if x = 3 then 0 else if x = 6 then 1 else -1
    arr := fun i => if i = 0 then 3 else if i = 1 then 6 else 0
    size := 2 }

theorem WH_wf : HeapWf WH := by
  refine ⟨⟨by decide, by decide, by decide, ?_⟩, ?_⟩
  case refine_2 =>
    intro j hj0 hjs
    have hj : j = 1 := by
      have : j < 2 := hjs
      omega
    rw [hj]
    decide
  intro n hn
  by_cases h3 : n = 3
  · exact ⟨0, by simp [WH, h3], by decide, by simp [WH, h3]⟩
  · by_cases h6 : n = 6
    · exact ⟨1, by simp [WH, h3, h6], by decide, by simp [WH, h6]⟩
    · exact absurd (by simp [WH, h3, h6]) hn

/-- **C7 witness.** Deleting node 3 from `WH` succeeds and leaves node 6
in a well-formed one-element heap. -/
theorem claim_C7_witness :
    (0 ≤ (3 : Int) ∧ (3 : Int) < (MAX_NODES : Int) ∧ WH.pos (3 : Int).toNat ≠ -1) ∧
    (heap_delete WH 3).1 = 0 ∧
    HeapWf (heap_delete WH 3).2 ∧
    (heap_delete WH 3).2.size + 1 = WH.size ∧
    (heap_delete WH 3).2.key = WH.key ∧
    (heap_delete WH 3).2.pos (3 : Int).toNat = -1 ∧
    (∀ m, m ≠ (3 : Int).toNat →
      ((heap_delete WH 3).2.pos m = -1 ↔ WH.pos m = -1)) :=
  ⟨⟨by decide, by decide, by decide⟩,
    (claim_C7 WH 3 WH_wf).1 ⟨by decide, by decide, by decide⟩⟩

/-- Writing the key of a node that is not in the heap preserves the heap
invariant (no occupied position refers to it). -/
theorem heapWf_key_update {h : Heap} {m : Nat} (k : ℚ) (hwf : HeapWf h)
    (hpos : h.pos m = -1) :
    HeapWf { h with key := fun x => if x = m then k else h.key x } := by
  obtain ⟨hc, ho⟩ := hwf
  have harr_ne : ∀ i, i < h.size → h.arr i ≠ m := by
    intro i hi he
    have := hc.posOf i hi
    rw [he, hpos] at this
    omega
  refine ⟨⟨hc.size_le, hc.arr_lt, hc.posOf, hc.pos_valid⟩, ?_⟩
  intro j hj0 hjs
  have hjs' : j < h.size := hjs
  show (if h.arr (heap_parent j) = m then k else h.key (h.arr (heap_parent j))) ≤
    (if h.arr j = m then k else h.key (h.arr j))
  have hpj : heap_parent j < j := heap_parent_lt hj0
  rw [if_neg (harr_ne _ (by omega)), if_neg (harr_ne _ hjs')]
  exact ho j hj0 hjs'

/-- The share a customer carries after being unbound at instant `now`
(`remove_customer_from_tool`'s update). -/
def updatedShare (now : Int) (s : Sched) (cu : Nat) : ℚ :=
  (s.customers cu).share + ((now - (s.customers cu).session_start : Int) : ℚ)

/-- Full effect of `move_to_queue` on a customer not currently in the
queue: Waiting state, key written to the current share, heap invariant
restored, everything else framed. -/
theorem move_to_queue_spec (now : Int) (s : Sched) (m : Nat)
    (hm : m < MAX_NODES) (hwf : HeapWf s.heap) (hpos : s.heap.pos m = -1) :
    (move_to_queue now s m).customers m =
      { s.customers m with state := CustomerState.WAITING, wait_start := now } ∧
    (∀ x, x ≠ m → (move_to_queue now s m).customers x = s.customers x) ∧
    (move_to_queue now s m).tools = s.tools ∧
    (move_to_queue now s m).log = s.log ∧
    (move_to_queue now s m).total_share = s.total_share ∧
    (move_to_queue now s m).num_tools = s.num_tools ∧
    (move_to_queue now s m).q = s.q ∧
    (move_to_queue now s m).Q = s.Q ∧
    (move_to_queue now s m).resting_customers = s.resting_customers ∧
    (move_to_queue now s m).total_customers = s.total_customers ∧
    (move_to_queue now s m).waiting_count = s.waiting_count + 1 ∧
    (move_to_queue now s m).heap =
      heap_insert_go
        { s.heap with key := fun x => if x = m then (s.customers m).share
                                      else s.heap.key x } m ∧
    HeapWf (move_to_queue now s m).heap ∧
    (move_to_queue now s m).heap.pos m ≠ -1 ∧
    (move_to_queue now s m).heap.key m = (s.customers m).share ∧
    (move_to_queue now s m).heap.size = s.heap.size + 1 ∧
    (∀ x, x ≠ m → ((move_to_queue now s m).heap.pos x = -1 ↔ s.heap.pos x = -1)) ∧
    (∀ x, x ≠ m → (move_to_queue now s m).heap.key x = s.heap.key x) := by
  have hkf : HeapWf { s.heap with key := fun x =>
      if x = m then (s.customers m).share else s.heap.key x } :=
    heapWf_key_update _ hwf hpos
  have hsz : ({ s.heap with key := fun x =>
      if x = m then (s.customers m).share else s.heap.key x } : Heap).size < MAX_NODES :=
    heapConsistent_size_lt hkf.1 hm hpos
  obtain ⟨hwf', hsize', hkey', hpos', hpres'⟩ := heap_insert_go_spec hkf hm hpos hsz
  have hheap : (move_to_queue now s m).heap =
      heap_insert_go
        { s.heap with key := fun x => if x = m then (s.customers m).share
                                      else s.heap.key x } m := by
    simp only [move_to_queue, updC]
    rw [heap_insert_eq_go hkf.1 hm hpos]
  refine ⟨by simp [move_to_queue, updC], fun x hx => by simp [move_to_queue, updC, hx],
    rfl, rfl, rfl, rfl, rfl, rfl, rfl, rfl, rfl, hheap, ?_, ?_, ?_, ?_, ?_, ?_⟩
  · rw [hheap]; exact hwf'
  · rw [hheap]; exact hpos'
  · rw [hheap, hkey']
    simp
  · rw [hheap, hsize']
  · intro x hx
    rw [hheap]
    exact hpres' x hx
  · intro x hx
    rw [hheap, hkey']
    simp [hx]

/-- On a well-formed non-empty queue, `assign_next_from_queue` pops the
root - a node of minimal key - and binds it to the tool. -/
theorem assign_next_from_queue_spec (now : Int) (s : Sched) (tid : Nat)
    (hwf : HeapWf s.heap) (hsz : 0 < s.heap.size) :
    assign_next_from_queue now s tid =
      assign_tool_to_customer now { s with heap := (heap_pop s.heap).2 }
        (s.heap.arr 0) tid ∧
    (∀ j, j < s.heap.size → s.heap.key (s.heap.arr 0) ≤ s.heap.key (s.heap.arr j)) := by
  obtain ⟨hfst, hmin, hwf', hsize', hkey', hpos', hpres'⟩ := heap_pop_spec hwf hsz
  refine ⟨?_, hmin⟩
  simp only [assign_next_from_queue]
  rw [if_neg (by omega), hfst, if_pos ⟨by omega, by omega⟩, Int.toNat_natCast]

/-- The waiting queue as it stands inside a forced preemption, right
after the displaced holder `cu` has been enqueued with its updated share
as key. -/
def queueAfterInsert (now : Int) (s : Sched) (cu : Nat) : Heap :=
  heap_insert_go
    { s.heap with key := fun x =>
        if x = cu then updatedShare now s cu else s.heap.key x } cu

/-- **C2.** On a runner tick where the bound customer `cu` has not
completed, `elapsed ≥ Q`, and the queue is non-empty, the holder is
preempted regardless of shares: `TOOL_REMOVED` is logged with the
updated share, the holder enters the queue with key equal to that share,
and the root of the resulting queue - a waiter of minimal key `m` - is
popped and bound to the tool (`TOOL_ASSIGNED`); when the popped waiter
is not the holder itself, the holder stays Waiting in the queue. -/
theorem claim_C2 (now : Int) (s : Sched) (tid cu : Nat) (hq : Heap) (m : Nat)
    (hcu_def : (s.tools tid).current_user = (cu : Int))
    (hq_def : hq = queueAfterInsert now s cu)
    (hm_def : m = hq.arr 0)
    (hlt : cu < MAX_NODES)
    (hct : (s.customers cu).current_tool = (tid : Int))
    (hnotdone : 0 < (s.customers cu).request_duration - (now - (s.tools tid).session_start))
    (hQ : now - (s.tools tid).session_start ≥ s.Q)
    (hqueue : 0 < s.heap.size)
    (hwf : HeapWf s.heap)
    (hposcu : s.heap.pos cu = -1) :
    (tool_tick now s tid).log = s.log ++
      [⟨EventType.TOOL_REMOVED, (s.customers cu).customer_id,
        truncQ (updatedShare now s cu), (tid : Int)⟩,
       ⟨EventType.TOOL_ASSIGNED, (s.customers m).customer_id,
        truncQ (if m = cu then updatedShare now s cu else (s.customers m).share),
        (tid : Int)⟩] ∧
    hq.pos cu ≠ -1 ∧
    hq.key cu = updatedShare now s cu ∧
    (∀ j, j < hq.size → hq.key (hq.arr 0) ≤ hq.key (hq.arr j)) ∧
    ((tool_tick now s tid).tools tid).current_user = (m : Int) ∧
    ((tool_tick now s tid).customers m).state = CustomerState.USING ∧
    ((tool_tick now s tid).customers m).current_tool = (tid : Int) ∧
    (m ≠ cu →
      ((tool_tick now s tid).customers cu).state = CustomerState.WAITING ∧
      (tool_tick now s tid).heap.pos cu ≠ -1 ∧
      (tool_tick now s tid).heap.key cu = updatedShare now s cu) := by
  have hbound : (s.tools tid).current_user ≠ -1 := by rw [hcu_def]; omega
  -- Step 1: the tick reduces to a forced preemption on the usage-updated state.
  have hremen : (if (s.customers cu).request_duration -
      (now - (s.tools tid).session_start) < 0 then 0
      else (s.customers cu).request_duration - (now - (s.tools tid).session_start)) =
      (s.customers cu).request_duration - (now - (s.tools tid).session_start) :=
    if_neg (by omega)
  have htick : tool_tick now s tid = force_preempt now
      { s with
        tools := fun x => if x = tid then
          { s.tools tid with current_usage := now - (s.tools tid).session_start }
          else s.tools x
        customers := fun x => if x = cu then
          { s.customers cu with remaining_duration :=
              (s.customers cu).request_duration - (now - (s.tools tid).session_start) }
          else s.customers x } cu tid := by
    simp only [tool_tick]
    rw [if_neg hbound]
    simp only [hcu_def, Int.toNat_natCast, hremen]
    rw [if_neg (by omega), if_pos hQ, if_pos (by exact hqueue)]
  set s0 : Sched :=
      { s with
        tools := fun x => if x = tid then
          { s.tools tid with current_usage := now - (s.tools tid).session_start }
          else s.tools x
        customers := fun x => if x = cu then
          { s.customers cu with remaining_duration :=
              (s.customers cu).request_duration - (now - (s.tools tid).session_start) }
          else s.customers x } with hs0_def
  have hs0heap : s0.heap = s.heap := rfl
  have hs0log : s0.log = s.log := rfl
  have hs0c : s0.customers cu = { s.customers cu with remaining_duration :=
      (s.customers cu).request_duration - (now - (s.tools tid).session_start) } := by
    rw [hs0_def]; simp
  have hs0c_other : ∀ x, x ≠ cu → s0.customers x = s.customers x := by
    intro x hx
    rw [hs0_def]; simp [hx]
  -- Step 2: the removal.
  have hb1 : (s0.customers cu).current_tool ≠ -1 := by
    rw [hs0c]
    show (s.customers cu).current_tool ≠ -1
    rw [hct]
    omega
  obtain ⟨r1, r2, r3, r4, r5, r6, r7, r8, r9, r10, r11, r12, r13⟩ :=
    remove_customer_from_tool_spec now s0 cu EventType.TOOL_REMOVED hb1
  set s1 := remove_customer_from_tool now s0 cu EventType.TOOL_REMOVED with hs1_def
  have hs1heap : s1.heap = s.heap := r7
  have hs1share : (s1.customers cu).share = updatedShare now s cu := by
    rw [r1, hs0c]
    show (s.customers cu).share +
      ((now - (s.customers cu).session_start : Int) : ℚ) = _
    rfl
  have hs1id : (s1.customers cu).customer_id = (s.customers cu).customer_id := by
    rw [r1, hs0c]
  have hs1state_other : ∀ x, x ≠ cu → s1.customers x = s.customers x := by
    intro x hx
    rw [r2 x hx, hs0c_other x hx]
  have hs1log : s1.log = s.log ++
      [⟨EventType.TOOL_REMOVED, (s.customers cu).customer_id,
        truncQ (updatedShare now s cu), (tid : Int)⟩] := by
    rw [r6, hs0log, hs0c]
    show s.log ++ [⟨EventType.TOOL_REMOVED, (s.customers cu).customer_id,
      truncQ ((s.customers cu).share +
        ((now - (s.customers cu).session_start : Int) : ℚ)),
      (s.customers cu).current_tool⟩] = _
    rw [hct]
    rfl
  -- Step 3: the displaced holder enters the queue.
  have hwf1 : HeapWf s1.heap := by rw [hs1heap]; exact hwf
  have hpos1 : s1.heap.pos cu = -1 := by rw [hs1heap]; exact hposcu
  obtain ⟨m1, m2, m3, m4, m5, m6, m7, m8, m9, m10, m11, m12, m13, m14, m15, m16, m17, m18⟩ :=
    move_to_queue_spec now s1 cu hlt hwf1 hpos1
  set s2 := move_to_queue now s1 cu with hs2_def
  have hs2heap : s2.heap = hq := by
    rw [m12]
    simp only [hs1heap, hs1share]
    rw [hq_def]
    rfl
  have hs2wf : HeapWf s2.heap := m13
  have hs2sz : 0 < s2.heap.size := by
    rw [m16, hs1heap]
    omega
  have hs2log : s2.log = s1.log := m4
  have hs2c_cu : s2.customers cu =
      { s1.customers cu with state := CustomerState.WAITING, wait_start := now } := m1
  have hs2c_other : ∀ x, x ≠ cu → s2.customers x = s.customers x := by
    intro x hx
    rw [m2 x hx, hs1state_other x hx]
  -- Step 4: pop the queue and bind the next waiter.
  obtain ⟨ha1, ha2⟩ := assign_next_from_queue_spec now s2 tid hs2wf hs2sz
  obtain ⟨p1, p2, p3, p4, p5, p6, p7⟩ := heap_pop_spec hs2wf hs2sz
  have hm' : s2.heap.arr 0 = m := by rw [hs2heap, ← hm_def]
  set sP : Sched := { s2 with heap := (heap_pop s2.heap).2 } with hsP_def
  have hsPc : ∀ x, sP.customers x = s2.customers x := fun x => rfl
  have hsPlog : sP.log = s2.log := rfl
  obtain ⟨a1, a2, a3, a4, a5, a6, a7, a8, a9, a10, a11, a12, a13⟩ :=
    assign_tool_to_customer_spec now sP m tid
  have hfinal : tool_tick now s tid = assign_tool_to_customer now sP m tid := by
    rw [htick]
    show force_preempt now s0 cu tid = _
    rw [force_preempt]
    rw [← hs1_def, ← hs2_def, ha1, hm']
  -- the popped customer's record at assignment time
  have hsPm_id : (sP.customers m).customer_id = (s.customers m).customer_id := by
    by_cases hmc : m = cu
    · rw [hsPc m, hmc, hs2c_cu]
      show (s1.customers cu).customer_id = (s.customers cu).customer_id
      exact hs1id
    · rw [hsPc m, hs2c_other m hmc]
  have hsPm_share : (sP.customers m).share =
      (if m = cu then updatedShare now s cu else (s.customers m).share) := by
    by_cases hmc : m = cu
    · rw [hsPc m, hmc, if_pos rfl, hs2c_cu]
      show (s1.customers cu).share = updatedShare now s cu
      exact hs1share
    · rw [hsPc m, hs2c_other m hmc, if_neg hmc]
  refine ⟨?_, ?_, ?_, ?_, ?_, ?_, ?_, ?_⟩
  · rw [hfinal, a5, hsPlog, hs2log, hs1log, hsPm_id, hsPm_share]
    simp
  · rw [← hs2heap]
    exact m14
  · rw [← hs2heap, m15]
    exact hs1share
  · intro j hj
    rw [← hs2heap] at hj ⊢
    exact ha2 j hj
  · rw [hfinal, a3]
  · rw [hfinal, a1]
  · rw [hfinal, a1]
  · intro hmc
    have hcm : cu ≠ m := fun h => hmc h.symm
    have hheapP : (assign_tool_to_customer now sP m tid).heap = sP.heap := by
      by_cases hwm : (sP.customers m).state = CustomerState.WAITING
      · rw [(a13 hwm).2]
        rw [if_neg (by
          push_neg
          show (heap_pop s2.heap).2.pos m = -1
          rw [← hm']
          exact p6)]
      · exact (a12 hwm).1
    have hcu_ne : cu ≠ s2.heap.arr 0 := by rw [hm']; exact hcm
    refine ⟨?_, ?_, ?_⟩
    · rw [hfinal, a2 cu hcm, hsPc cu, hs2c_cu]
    · rw [hfinal, hheapP]
      show (heap_pop s2.heap).2.pos cu ≠ -1
      intro hc
      exact m14 ((p7 cu hcu_ne).mp hc)
    · rw [hfinal, hheapP]
      show (heap_pop s2.heap).2.key cu = updatedShare now s cu
      rw [p5, m15]
      exact hs1share

/-- A one-tool state: customer 1 bound to tool 0 since t=0 (share 10,
request 1000 ms), customer 2 waiting with share 20 as its queue key. -/
def W2 : Sched :=
  { setup_shared_memory 100 500 1 with
    customers := fun x =>
      if x = 1 then
        { customer_id := 11, is_allocated := true, state := CustomerState.USING,
          share := 10, request_duration := 1000, remaining_duration := 1000,
          current_tool := 0, session_start := 0, wait_start := 0, heap_index := 1,
          event_pending := false, event_type := EventType.NONE, event_tool_id := 0 }
      else if x = 2 then
        { customer_id := 12, is_allocated := true, state := CustomerState.WAITING,
          share := 20, request_duration := 700, remaining_duration := 700,
          current_tool := -1, session_start := 0, wait_start := 0, heap_index := 2,
          event_pending := false, event_type := EventType.NONE, event_tool_id := 0 }
      else (setup_shared_memory 100 500 1).customers x
    tools := fun i =>
      if i = 0 then
        { tool_id := 0, total_usage := 0, current_user := 1,
          current_usage := 0, session_start := 0 }
      else (setup_shared_memory 100 500 1).tools i
    waiting_count := 1
    total_customers := 2
    resting_customers := 0
    total_share := 30
    free_customer_count := 1022
    heap :=
      { key := fun x => if x = 2 then 20 else 0
        pos := fun x => if x = 2 then 0 else -1
        arr := fun i => if i = 0 then 2 else 0
        size := 1 } }

theorem W2_heap_wf : HeapWf W2.heap := by
  refine ⟨⟨by decide, by decide, by decide, ?_⟩, ?_⟩
  · intro n hn
    by_cases h2 : n = 2
    · exact ⟨0, by simp [W2, h2], by decide, by simp [W2, h2]⟩
    · exact absurd (by simp [W2, h2]) hn
  · intro j hj0 hjs
    have hj1 : j < 1 := hjs
    omega

/-- **C2 witness.** At t=600 on `W2` (elapsed 600 ≥ Q=500, queue
non-empty, waiter share 20 above the holder's 10) the holder is
preempted and the popped minimum of the augmented queue is bound. -/
theorem claim_C2_witness :
    (0 < W2.heap.size ∧ 600 - (W2.tools 0).session_start ≥ W2.Q) ∧
    ((tool_tick 600 W2 0).tools 0).current_user =
      (((queueAfterInsert 600 W2 1).arr 0 : Nat) : Int) :=
  ⟨⟨by decide, by decide⟩,
    (claim_C2 600 W2 0 1 (queueAfterInsert 600 W2 1)
      ((queueAfterInsert 600 W2 1).arr 0) (by decide) rfl rfl (by decide) (by decide)
      (by decide) (by decide) (by decide) W2_heap_wf (by decide)).2.2.2.2.1⟩

/-! ## Preemption-candidate selection (claim C1) -/

/-- The claim's selection rule: among tools with a bound customer, the
one of largest `current_usage`, ties broken by smallest `tool_id`. -/
def IsPreemptTarget (s : Sched) (t : Nat) : Prop :=
  t < s.num_tools ∧ (s.tools t).current_user ≠ -1 ∧
  (∀ u, u < s.num_tools → (s.tools u).current_user ≠ -1 →
    (s.tools u).current_usage ≤ (s.tools t).current_usage) ∧
  (∀ u, u < s.num_tools → (s.tools u).current_user ≠ -1 →
    (s.tools u).current_usage = (s.tools t).current_usage → t ≤ u)

theorem fpc_scan_spec (s : Sched)
    (hnn : ∀ i, i < s.num_tools → 0 ≤ (s.tools i).current_usage) :
    ∀ n, n ≤ s.num_tools →
    ((fpc_scan s n = (-1, 0) ∧ ∀ i, i < n → (s.tools i).current_user = -1) ∨
     (∃ t : Nat, t < n ∧
       fpc_scan s n = ((t : Int), (s.tools t).current_usage) ∧
       (s.tools t).current_user ≠ -1 ∧
       (∀ i, i < n → (s.tools i).current_user ≠ -1 →
         (s.tools i).current_usage ≤ (s.tools t).current_usage) ∧
       (∀ i, i < n → (s.tools i).current_user ≠ -1 →
         (s.tools i).current_usage = (s.tools t).current_usage → t ≤ i))) := by
  intro n
  induction n with
  | zero =>
    intro hle
    left
    exact ⟨rfl, fun i hi => absurd hi (Nat.not_lt_zero i)⟩
  | succ n ih =>
    intro hle
    have hn_lt : n < s.num_tools := by omega
    rcases ih (by omega) with ⟨hacc, hall⟩ | ⟨t, ht_lt, hacc, htb, hmax, htie⟩
    · by_cases hb : (s.tools n).current_user = -1
      · left
        refine ⟨?_, ?_⟩
        · simp only [fpc_scan]
          rw [hacc, if_neg (by simp [hb])]
        · intro i hi
          rcases Nat.lt_or_ge i n with h | h
          · exact hall i h
          · have : i = n := by omega
            rw [this]; exact hb
      · right
        refine ⟨n, Nat.lt_succ_self n, ?_, hb, ?_, ?_⟩
        · simp only [fpc_scan]
          rw [hacc]
          refine if_pos ⟨hb, ?_⟩
          rcases lt_or_eq_of_le (hnn n hn_lt) with h | h
          · exact Or.inl h
          · exact Or.inr ⟨h.symm, Or.inl rfl⟩
        · intro i hi hbi
          rcases Nat.lt_or_ge i n with h | h
          · exact absurd (hall i h) hbi
          · have : i = n := by omega
            rw [this]
        · intro i hi hbi heq
          rcases Nat.lt_or_ge i n with h | h
          · exact absurd (hall i h) hbi
          · omega
    · by_cases hb : (s.tools n).current_user = -1
      · right
        refine ⟨t, by omega, ?_, htb, ?_, ?_⟩
        · simp only [fpc_scan]
          rw [hacc, if_neg (by simp [hb])]
        · intro i hi hbi
          rcases Nat.lt_or_ge i n with h | h
          · exact hmax i h hbi
          · have : i = n := by omega
            rw [this] at hbi
            exact absurd hb hbi
        · intro i hi hbi heq
          rcases Nat.lt_or_ge i n with h | h
          · exact htie i h hbi heq
          · have : i = n := by omega
            rw [this] at hbi
            exact absurd hb hbi
      · by_cases hgt : (s.tools n).current_usage > (s.tools t).current_usage
        · right
          refine ⟨n, Nat.lt_succ_self n, ?_, hb, ?_, ?_⟩
          · simp only [fpc_scan]
            rw [hacc, if_pos ⟨hb, Or.inl hgt⟩]
          · intro i hi hbi
            rcases Nat.lt_or_ge i n with h | h
            · exact le_trans (hmax i h hbi) (le_of_lt hgt)
            · have : i = n := by omega
              rw [this]
          · intro i hi hbi heq
            rcases Nat.lt_or_ge i n with h | h
            · have := hmax i h hbi
              omega
            · omega
        · right
          have hle' : (s.tools n).current_usage ≤ (s.tools t).current_usage := by omega
          refine ⟨t, by omega, ?_, htb, ?_, ?_⟩
          · simp only [fpc_scan]
            rw [hacc]
            refine if_neg ?_
            rintro ⟨-, hcnd⟩
            rcases hcnd with h | ⟨heq, hor⟩
            · omega
            · rcases hor with h | h
              · omega
              · have : (t : Int) < (n : Int) := by exact_mod_cast Nat.lt_of_lt_of_le ht_lt le_rfl
                omega
          · intro i hi hbi
            rcases Nat.lt_or_ge i n with h | h
            · exact hmax i h hbi
            · have : i = n := by omega
              rw [this]; exact hle'
          · intro i hi hbi heq
            rcases Nat.lt_or_ge i n with h | h
            · exact htie i h hbi heq
            · omega

theorem find_preemption_candidate_target (s : Sched) (new_share : ℚ) (t : Nat)
    (hnn : ∀ i, i < s.num_tools → 0 ≤ (s.tools i).current_usage)
    (ht : IsPreemptTarget s t) :
    find_preemption_candidate s new_share =
      (if (s.customers (s.tools t).current_user.toNat).share < new_share then -1
       else if (s.tools t).current_usage < s.q then -1 else (t : Int)) := by
  obtain ⟨ht_lt, htb, hmax, htie⟩ := ht
  rcases fpc_scan_spec s hnn s.num_tools le_rfl with
    ⟨hacc, hall⟩ | ⟨t0, h0lt, hacc, h0b, h0max, h0tie⟩
  · exact absurd (hall t ht_lt) htb
  · have husage : (s.tools t0).current_usage = (s.tools t).current_usage :=
      le_antisymm (hmax t0 h0lt h0b) (h0max t ht_lt htb)
    have hteq : t0 = t :=
      le_antisymm (h0tie t ht_lt htb husage.symm) (htie t0 h0lt h0b husage)
    subst hteq
    have hc1 : (fpc_scan s s.num_tools).1 = (t0 : Int) := by rw [hacc]
    simp only [find_preemption_candidate, hc1]
    rw [if_neg (by omega : ¬((t0 : Int) = -1)), Int.toNat_natCast]

theorem find_free_tool_scan_congr (s s' : Sched) (ht : s.tools = s'.tools) :
    ∀ n, find_free_tool_scan s n = find_free_tool_scan s' n := by
  intro n
  induction n with
  | zero => rfl
  | succ n ih =>
    simp only [find_free_tool_scan]
    rw [ih, ht]

theorem find_free_tool_congr (s s' : Sched) (ht : s.tools = s'.tools)
    (hn : s.num_tools = s'.num_tools) : find_free_tool s = find_free_tool s' := by
  simp only [find_free_tool]
  rw [hn, find_free_tool_scan_congr s s' ht]

/-- The entry phase of `handle_request` frames everything but the Resting
counter, the waiting counter and the requester's queue slot; a Waiting
requester always leaves the queue. -/
theorem handle_request_entry_spec (s : Sched) (idx : Nat) (hwf : HeapWf s.heap)
    (hidx : idx < MAX_NODES) :
    (handle_request_entry s idx).customers = s.customers ∧
    (handle_request_entry s idx).tools = s.tools ∧
    (handle_request_entry s idx).log = s.log ∧
    (handle_request_entry s idx).total_share = s.total_share ∧
    (handle_request_entry s idx).num_tools = s.num_tools ∧
    (handle_request_entry s idx).q = s.q ∧
    (handle_request_entry s idx).Q = s.Q ∧
    (handle_request_entry s idx).total_customers = s.total_customers ∧
    HeapWf (handle_request_entry s idx).heap ∧
    (handle_request_entry s idx).heap.key = s.heap.key ∧
    (∀ x, x ≠ idx →
      ((handle_request_entry s idx).heap.pos x = -1 ↔ s.heap.pos x = -1)) ∧
    ((s.customers idx).state = CustomerState.WAITING →
      (handle_request_entry s idx).heap.pos idx = -1 ∧
      (handle_request_entry s idx).waiting_count = s.waiting_count - 1) ∧
    ((s.customers idx).state ≠ CustomerState.WAITING →
      (handle_request_entry s idx).heap = s.heap) := by
  simp only [handle_request_entry]
  by_cases hr : (s.customers idx).state = CustomerState.RESTING
  · rw [if_pos hr]
    exact ⟨rfl, rfl, rfl, rfl, rfl, rfl, rfl, rfl, hwf, rfl,
      fun x _ => Iff.rfl,
      fun hw => absurd hr (by rw [hw]; decide),
      fun _ => rfl⟩
  · rw [if_neg hr]
    by_cases hw : (s.customers idx).state = CustomerState.WAITING
    · rw [if_pos hw]
      by_cases hp : s.heap.pos idx ≠ -1
      · rw [if_pos hp]
        obtain ⟨-, hwf2, -, hkey2, hpos2, hpres2⟩ :=
          (heap_delete_spec s.heap (idx : Int) hwf).1
            ⟨by omega, by exact_mod_cast hidx, by rwa [Int.toNat_natCast]⟩
        rw [Int.toNat_natCast] at hpos2
        refine ⟨rfl, rfl, rfl, rfl, rfl, rfl, rfl, rfl, hwf2, hkey2, ?_,
          fun _ => ⟨hpos2, rfl⟩, fun h => absurd hw h⟩
        intro x hx
        exact hpres2 x (by rw [Int.toNat_natCast]; exact hx)
      · rw [if_neg hp]
        push_neg at hp
        exact ⟨rfl, rfl, rfl, rfl, rfl, rfl, rfl, rfl, hwf, rfl,
          fun x _ => Iff.rfl, fun _ => ⟨hp, rfl⟩, fun h => absurd hw h⟩
    · rw [if_neg hw]
      exact ⟨rfl, rfl, rfl, rfl, rfl, rfl, rfl, rfl, hwf, rfl,
        fun x _ => Iff.rfl, fun h => absurd h hw, fun _ => rfl⟩

/-- **C1.** When `handle_request` finds no free tool: with `t` the bound
tool of largest `current_usage` (ties to the smallest id) and `H` its
holder, the request preempts exactly when `H.share ≥ requester.share` and
`current_usage ≥ q`.  On preemption `H` is unbound with a `TOOL_REMOVED`
event, re-enters the waiting queue keyed by its updated share, and the
requester is bound to the freed tool; otherwise the requester is merely
enqueued with key equal to its share and the tools are untouched. -/
theorem claim_C1 (now : Int) (s : Sched) (idx H t : Nat) (dur : Int)
    (hidx : idx < MAX_NODES)
    (hfree : find_free_tool s = -1)
    (hnn : ∀ i, i < s.num_tools → 0 ≤ (s.tools i).current_usage)
    (ht : IsPreemptTarget s t)
    (hH : (s.tools t).current_user = (H : Int))
    (hHlt : H < MAX_NODES)
    (hHne : H ≠ idx)
    (hHct : (s.customers H).current_tool = (t : Int))
    (hwf : HeapWf s.heap)
    (hposH : s.heap.pos H = -1)
    (hposidx : (s.customers idx).state ≠ CustomerState.WAITING → s.heap.pos idx = -1) :
    (((s.customers idx).share ≤ (s.customers H).share ∧
        s.q ≤ (s.tools t).current_usage) →
      ((handle_request now s idx dur).customers idx).state = CustomerState.USING ∧
      ((handle_request now s idx dur).customers idx).current_tool = (t : Int) ∧
      ((handle_request now s idx dur).tools t).current_user = (idx : Int) ∧
      ((handle_request now s idx dur).customers H).state = CustomerState.WAITING ∧
      (handle_request now s idx dur).heap.pos H ≠ -1 ∧
      (handle_request now s idx dur).heap.key H = updatedShare now s H ∧
      (handle_request now s idx dur).log = s.log ++
        [⟨EventType.TOOL_REMOVED, (s.customers H).customer_id,
          truncQ (updatedShare now s H), (t : Int)⟩,
         ⟨EventType.TOOL_ASSIGNED, (s.customers idx).customer_id,
          truncQ (s.customers idx).share, (t : Int)⟩]) ∧
    (((s.customers H).share < (s.customers idx).share ∨
        (s.tools t).current_usage < s.q) →
      ((handle_request now s idx dur).customers idx).state = CustomerState.WAITING ∧
      (handle_request now s idx dur).heap.pos idx ≠ -1 ∧
      (handle_request now s idx dur).heap.key idx = (s.customers idx).share ∧
      (handle_request now s idx dur).log = s.log ∧
      (handle_request now s idx dur).tools = s.tools) := by
  obtain ⟨e1, e2, e3, e4, e5, e6, e7, e8, e9, e10, e11, e12, e13⟩ :=
    handle_request_entry_spec s idx hwf hidx
  set sE := handle_request_entry s idx with hsE
  set s2 := updC sE idx
    { (sE.customers idx) with request_duration := dur, remaining_duration := dur }
    with hs2
  have hhr : handle_request now s idx dur = handle_request_body now s2 idx := rfl
  have hs2tools : s2.tools = s.tools := e2
  have hs2num : s2.num_tools = s.num_tools := e5
  have hs2q : s2.q = s.q := e6
  have hs2log : s2.log = s.log := e3
  have hwfs2 : HeapWf s2.heap := e9
  have hs2cix : s2.customers idx =
      { s.customers idx with request_duration := dur, remaining_duration := dur } := by
    rw [hs2, updC_customers_self, e1]
  have hcs : (s2.customers idx).share = (s.customers idx).share := by rw [hs2cix]
  have hcid : (s2.customers idx).customer_id = (s.customers idx).customer_id := by
    rw [hs2cix]
  have hcH : s2.customers H = s.customers H := by
    rw [hs2, updC_customers_other _ _ hHne, e1]
  have hfree2 : find_free_tool s2 = -1 := by
    rw [find_free_tool_congr s2 s hs2tools hs2num]; exact hfree
  have hnn2 : ∀ i, i < s2.num_tools → 0 ≤ (s2.tools i).current_usage := by
    intro i hi
    rw [hs2tools]
    exact hnn i (by rwa [hs2num] at hi)
  have ht2 : IsPreemptTarget s2 t := by
    unfold IsPreemptTarget at ht ⊢
    rw [hs2tools, hs2num]
    exact ht
  have hfpc := find_preemption_candidate_target s2 ((s2.customers idx).share) t hnn2 ht2
  rw [hs2tools, hs2q, hH, Int.toNat_natCast, hcH, hcs] at hfpc
  have hposidxE : sE.heap.pos idx = -1 := by
    by_cases hwx : (s.customers idx).state = CustomerState.WAITING
    · exact (e12 hwx).1
    · rw [e13 hwx]; exact hposidx hwx
  constructor
  · rintro ⟨hsh, hq⟩
    have hcand : find_preemption_candidate s2 ((s.customers idx).share) = (t : Int) := by
      rw [hfpc, if_neg (not_lt.mpr hsh), if_neg (not_lt.mpr hq)]
    have hbody : handle_request now s idx dur =
        assign_tool_to_customer now
          (move_to_queue now (remove_customer_from_tool now s2 H EventType.TOOL_REMOVED) H)
          idx t := by
      rw [hhr]
      simp only [handle_request_body]
      rw [hfree2, if_neg (by simp), hcs, hcand, if_pos (by omega), Int.toNat_natCast,
        hs2tools, hH, Int.toNat_natCast]
    set s3 := remove_customer_from_tool now s2 H EventType.TOOL_REMOVED with hs3
    have hbH : (s2.customers H).current_tool ≠ -1 := by rw [hcH, hHct]; omega
    obtain ⟨r1, r2, r3, r4, r5, r6, r7, r8, r9, r10, r11, r12, r13⟩ :=
      remove_customer_from_tool_spec now s2 H EventType.TOOL_REMOVED hbH
    have hwf3 : HeapWf s3.heap := by rw [r7]; exact e9
    have hpos3 : s3.heap.pos H = -1 := by
      rw [r7]
      exact (e11 H hHne).mpr hposH
    set s6 := move_to_queue now s3 H with hs6
    obtain ⟨m1, m2, m3, m4, m5, m6, m7, m8, m9, m10, m11, m12, m13, m14, m15, m16,
      m17, m18⟩ := move_to_queue_spec now s3 H hHlt hwf3 hpos3
    have hpos6idx : s6.heap.pos idx = -1 := by
      refine (m17 idx (Ne.symm hHne)).mpr ?_
      rw [r7]
      exact hposidxE
    obtain ⟨a1, a2, a3, a4, a5, a6, a7, a8, a9, a10, a11, a12, a13⟩ :=
      assign_tool_to_customer_spec now s6 idx t
    have hheapfin : (assign_tool_to_customer now s6 idx t).heap = s6.heap := by
      by_cases hwx : (s6.customers idx).state = CustomerState.WAITING
      · rw [(a13 hwx).2, if_neg (not_not_intro hpos6idx)]
      · exact (a12 hwx).1
    have hc6idx : s6.customers idx = s2.customers idx := by
      rw [m2 idx (Ne.symm hHne), r2 idx (Ne.symm hHne)]
    have hshare3 : (s3.customers H).share = updatedShare now s H := by
      rw [r1]
      simp only [updatedShare, hcH]
    rw [hbody]
    refine ⟨by rw [a1], by rw [a1], by rw [a3], ?_, ?_, ?_, ?_⟩
    · rw [a2 H hHne, m1]
    · rw [hheapfin]
      exact m14
    · rw [hheapfin, m15]
      exact hshare3
    · rw [a5, m4, r6, hs2log, hc6idx, hcid, hcs, hcH, hHct]
      simp only [updatedShare]
      rw [List.append_assoc]
      rfl
  · intro hor
    have hcand : find_preemption_candidate s2 ((s.customers idx).share) = -1 := by
      rw [hfpc]
      rcases hor with h | h
      · rw [if_pos h]
      · by_cases h2 : (s.customers H).share < (s.customers idx).share
        · rw [if_pos h2]
        · rw [if_neg h2, if_pos h]
    have hbody : handle_request now s idx dur = move_to_queue now s2 idx := by
      rw [hhr]
      simp only [handle_request_body]
      rw [hfree2, if_neg (by simp), hcs, hcand, if_neg (by simp)]
    have hpos2idx : s2.heap.pos idx = -1 := hposidxE
    obtain ⟨m1, m2, m3, m4, m5, m6, m7, m8, m9, m10, m11, m12, m13, m14, m15, m16,
      m17, m18⟩ := move_to_queue_spec now s2 idx hidx hwfs2 hpos2idx
    rw [hbody]
    refine ⟨by rw [m1], m14, ?_, ?_, ?_⟩
    · rw [m15, hcs]
    · rw [m4, hs2log]
    · rw [m3, hs2tools]

/-- A scheduler state with the single tool 0 held by customer 1 (share
10, bound since t=0, usage 150 above q=100), customer 2 resting with
share 5, and an empty waiting queue. -/
def W1 : Sched :=
  { setup_shared_memory 100 500 1 with
    customers := fun x =>
      if x = 1 then
        { customer_id := 11, is_allocated := true, state := CustomerState.USING,
          share := 10, request_duration := 1000, remaining_duration := 1000,
          current_tool := 0, session_start := 0, wait_start := 0, heap_index := -1,
          event_pending := false, event_type := EventType.NONE, event_tool_id := 0 }
      else if x = 2 then
        { customer_id := 12, is_allocated := true, state := CustomerState.RESTING,
          share := 5, request_duration := 0, remaining_duration := 0,
          current_tool := -1, session_start := 0, wait_start := 0, heap_index := -1,
          event_pending := false, event_type := EventType.NONE, event_tool_id := 0 }
      else (setup_shared_memory 100 500 1).customers x
    tools := fun i =>
      if i = 0 then
        { tool_id := 0, total_usage := 0, current_user := 1,
          current_usage := 150, session_start := 0 }
      else (setup_shared_memory 100 500 1).tools i
    waiting_count := 0
    total_customers := 2
    resting_customers := 1
    total_share := 15
    free_customer_count := 1022 }

theorem W1_heap_wf : HeapWf W1.heap := by
  refine ⟨⟨by decide, by decide, by decide, ?_⟩, ?_⟩
  · intro n hn
    exact absurd rfl hn
  · intro j hj0 hjs
    have hz : j < 0 := hjs
    omega

theorem W1_nn : ∀ i, i < W1.num_tools → 0 ≤ (W1.tools i).current_usage := by
  intro i hi
  have hi1 : i < 1 := hi
  have hi0 : i = 0 := by omega
  subst hi0
  decide

theorem W1_target : IsPreemptTarget W1 0 := by
  refine ⟨by decide, by decide, ?_, ?_⟩
  · intro u hu hb
    have hu1 : u < 1 := hu
    have hu0 : u = 0 := by omega
    subst hu0
    exact le_refl _
  · intro u hu hb heq
    exact Nat.zero_le u

/-- **C1 witness.** On `W1` a request by customer 2 (share 5 ≤ holder
share 10, usage 150 ≥ q=100) preempts: the requester ends up Using the
tool. -/
theorem claim_C1_witness :
    ((W1.customers 2).share ≤ (W1.customers 1).share ∧
      W1.q ≤ (W1.tools 0).current_usage) ∧
    ((handle_request 600 W1 2 300).customers 2).state = CustomerState.USING :=
  ⟨⟨by decide, by decide⟩,
    ((claim_C1 600 W1 2 1 0 300 (by decide) (by decide) W1_nn W1_target (by decide)
      (by decide) (by decide) (by decide) W1_heap_wf (by decide)
      (fun _ => by decide)).1 ⟨by decide, by decide⟩).1⟩

/-! ## The queue-membership invariant (claim C3) -/

/-- A customer is in the waiting queue (back-map position not NIL)
exactly when its state is Waiting. -/
def QueueInv (s : Sched) : Prop :=
  ∀ m, m < MAX_NODES →
    (s.heap.pos m ≠ -1 ↔ (s.customers m).state = CustomerState.WAITING)

theorem remove_customer_from_tool_id (now : Int) (s : Sched) (idx : Nat)
    (ev : EventType) (h : (s.customers idx).current_tool = -1) :
    remove_customer_from_tool now s idx ev = s := by
  simp only [remove_customer_from_tool]
  rw [if_pos h]

/-- **C3.** (As amended: the code/hw1.c variant.)  `handle_request`
preserves the in-queue ⟺ Waiting invariant, and in particular first
removes a Waiting requester from the queue and decrements
`waiting_count` before the placement rule runs. -/
theorem claim_C3 (now : Int) (s : Sched) (idx : Nat) (dur : Int)
    (hidx : idx < MAX_NODES)
    (hwf : HeapWf s.heap)
    (hinv : QueueInv s)
    (hreq : (s.customers idx).state ≠ CustomerState.USING)
    (hnn : ∀ i, i < s.num_tools → 0 ≤ (s.tools i).current_usage)
    (hbound : ∀ u, u < s.num_tools → (s.tools u).current_user ≠ -1 →
      ∃ c : Nat, c < MAX_NODES ∧ (s.tools u).current_user = (c : Int) ∧
        (s.customers c).state = CustomerState.USING) :
    QueueInv (handle_request now s idx dur) ∧
    ((s.customers idx).state = CustomerState.WAITING →
      (handle_request_entry s idx).heap.pos idx = -1 ∧
      (handle_request_entry s idx).waiting_count = s.waiting_count - 1) := by
  obtain ⟨e1, e2, e3, e4, e5, e6, e7, e8, e9, e10, e11, e12, e13⟩ :=
    handle_request_entry_spec s idx hwf hidx
  refine ⟨?_, e12⟩
  set sE := handle_request_entry s idx with hsE
  set s2 := updC sE idx
    { (sE.customers idx) with request_duration := dur, remaining_duration := dur }
    with hs2
  have hhr : handle_request now s idx dur = handle_request_body now s2 idx := rfl
  have hs2tools : s2.tools = s.tools := e2
  have hs2num : s2.num_tools = s.num_tools := e5
  have hwfs2 : HeapWf s2.heap := e9
  have hs2heap : s2.heap = sE.heap := rfl
  have hs2cix : s2.customers idx =
      { s.customers idx with request_duration := dur, remaining_duration := dur } := by
    rw [hs2, updC_customers_self, e1]
  have hs2cOther : ∀ m, m ≠ idx → s2.customers m = s.customers m := by
    intro m hm
    rw [hs2, updC_customers_other _ _ hm, e1]
  have hstate2 : ∀ m, (s2.customers m).state = (s.customers m).state := by
    intro m
    by_cases hm : m = idx
    · subst hm; rw [hs2cix]
    · rw [hs2cOther m hm]
  have hs2posidx : s2.heap.pos idx = -1 := by
    rw [hs2heap]
    by_cases hwx : (s.customers idx).state = CustomerState.WAITING
    · exact (e12 hwx).1
    · rw [e13 hwx]
      by_contra hne
      exact hwx ((hinv idx hidx).mp hne)
  have hpos2iff : ∀ m, m ≠ idx → (s2.heap.pos m = -1 ↔ s.heap.pos m = -1) := by
    intro m hm
    rw [hs2heap]
    exact e11 m hm
  have hinv2 : ∀ m, m < MAX_NODES → m ≠ idx →
      (s2.heap.pos m ≠ -1 ↔ (s2.customers m).state = CustomerState.WAITING) := by
    intro m hm hmidx
    rw [hstate2 m, ← hinv m hm]
    exact not_congr (hpos2iff m hmidx)
  rw [hhr]
  by_cases hft : find_free_tool s2 ≠ -1
  · have hbody : handle_request_body now s2 idx =
        assign_tool_to_customer now s2 idx (find_free_tool s2).toNat := by
      simp only [handle_request_body]
      rw [if_pos hft]
    rw [hbody]
    obtain ⟨a1, a2, a3, a4, a5, a6, a7, a8, a9, a10, a11, a12, a13⟩ :=
      assign_tool_to_customer_spec now s2 idx (find_free_tool s2).toNat
    have hheap : (assign_tool_to_customer now s2 idx (find_free_tool s2).toNat).heap =
        s2.heap := by
      by_cases hwx : (s2.customers idx).state = CustomerState.WAITING
      · rw [(a13 hwx).2, if_neg (not_not_intro hs2posidx)]
      · exact (a12 hwx).1
    intro m hm
    by_cases hmi : m = idx
    · subst hmi
      rw [hheap, a1]
      simp [hs2posidx]
    · rw [hheap, a2 m hmi]
      exact hinv2 m hm hmi
  · push_neg at hft
    by_cases hp : find_preemption_candidate s2 ((s2.customers idx).share) ≠ -1
    · have hnn2 : ∀ i, i < s2.num_tools → 0 ≤ (s2.tools i).current_usage := by
        intro i hi
        rw [hs2tools]
        exact hnn i (by rwa [hs2num] at hi)
      rcases fpc_scan_spec s2 hnn2 s2.num_tools le_rfl with
        ⟨hacc, hall⟩ | ⟨t0, ht0lt, hacc, h0b, h0max, h0tie⟩
      · exfalso
        apply hp
        have hc1 : (fpc_scan s2 s2.num_tools).1 = -1 := by rw [hacc]
        simp [find_preemption_candidate, hc1]
      · have hc1 : (fpc_scan s2 s2.num_tools).1 = (t0 : Int) := by rw [hacc]
        have hfpc_eq : find_preemption_candidate s2 ((s2.customers idx).share) =
            (if (s2.customers (s2.tools t0).current_user.toNat).share <
                (s2.customers idx).share then -1
             else if (s2.tools t0).current_usage < s2.q then -1 else (t0 : Int)) := by
          simp only [find_preemption_candidate, hc1]
          rw [if_neg (by omega : ¬((t0 : Int) = -1)), Int.toNat_natCast]
        have htool2 : find_preemption_candidate s2 ((s2.customers idx).share) =
            (t0 : Int) := by
          rw [hfpc_eq] at hp ⊢
          by_cases h1 : (s2.customers (s2.tools t0).current_user.toNat).share <
              (s2.customers idx).share
          · rw [if_pos h1] at hp; exact absurd rfl hp
          · rw [if_neg h1] at hp ⊢
            by_cases h2 : (s2.tools t0).current_usage < s2.q
            · rw [if_pos h2] at hp; exact absurd rfl hp
            · rw [if_neg h2]
        have h0b' : (s.tools t0).current_user ≠ -1 := by rw [← hs2tools]; exact h0b
        obtain ⟨c, hclt, hcu, hcUSING⟩ :=
          hbound t0 (by rw [← hs2num]; exact ht0lt) h0b'
        have hcu2 : (s2.tools t0).current_user = (c : Int) := by rw [hs2tools]; exact hcu
        have hcne : c ≠ idx := fun h => hreq (h ▸ hcUSING)
        have hbody : handle_request_body now s2 idx =
            assign_tool_to_customer now
              (move_to_queue now
                (remove_customer_from_tool now s2 c EventType.TOOL_REMOVED) c)
              idx t0 := by
          simp only [handle_request_body]
          rw [if_neg (not_not_intro hft), htool2, if_pos (by omega),
            Int.toNat_natCast, hcu2, Int.toNat_natCast]
        set s3 := remove_customer_from_tool now s2 c EventType.TOOL_REMOVED with hs3d
        have hs3heap : s3.heap = s2.heap := by
          by_cases hbtool : (s2.customers c).current_tool = -1
          · rw [hs3d, remove_customer_from_tool_id now s2 c _ hbtool]
          · exact (remove_customer_from_tool_spec now s2 c EventType.TOOL_REMOVED
              hbtool).2.2.2.2.2.2.1
        have hs3cust : ∀ m, m ≠ c → s3.customers m = s2.customers m := by
          by_cases hbtool : (s2.customers c).current_tool = -1
          · intro m hm; rw [hs3d, remove_customer_from_tool_id now s2 c _ hbtool]
          · exact (remove_customer_from_tool_spec now s2 c EventType.TOOL_REMOVED
              hbtool).2.1
        have hwf3 : HeapWf s3.heap := by rw [hs3heap]; exact hwfs2
        have hpos3c : s3.heap.pos c = -1 := by
          rw [hs3heap, hpos2iff c hcne]
          by_contra hne
          have hcw := (hinv c hclt).mp hne
          rw [hcUSING] at hcw
          exact absurd hcw (by decide)
        set s6 := move_to_queue now s3 c with hs6d
        obtain ⟨m1, m2, m3, m4, m5, m6, m7, m8, m9, m10, m11, m12, m13, m14, m15, m16,
          m17, m18⟩ := move_to_queue_spec now s3 c hclt hwf3 hpos3c
        have hpos6idx : s6.heap.pos idx = -1 := by
          refine (m17 idx (Ne.symm hcne)).mpr ?_
          rw [hs3heap]
          exact hs2posidx
        obtain ⟨a1, a2, a3, a4, a5, a6, a7, a8, a9, a10, a11, a12, a13⟩ :=
          assign_tool_to_customer_spec now s6 idx t0
        have hheapfin : (assign_tool_to_customer now s6 idx t0).heap = s6.heap := by
          by_cases hwx : (s6.customers idx).state = CustomerState.WAITING
          · rw [(a13 hwx).2, if_neg (not_not_intro hpos6idx)]
          · exact (a12 hwx).1
        rw [hbody]
        intro m hm
        by_cases hmi : m = idx
        · subst hmi
          rw [hheapfin, a1]
          simp [hpos6idx]
        · by_cases hmc : m = c
          · subst hmc
            rw [hheapfin, a2 m hmi, m1]
            simp [m14]
          · rw [hheapfin, a2 m hmi, m2 m hmc, hs3cust m hmc]
            rw [show s6.heap.pos m ≠ -1 ↔ s2.heap.pos m ≠ -1 from
              not_congr (by rw [← hs3heap]; exact m17 m hmc)]
            exact hinv2 m hm hmi
    · push_neg at hp
      have hbody : handle_request_body now s2 idx = move_to_queue now s2 idx := by
        simp only [handle_request_body]
        rw [if_neg (not_not_intro hft), if_neg (not_not_intro hp)]
      rw [hbody]
      obtain ⟨m1, m2, m3, m4, m5, m6, m7, m8, m9, m10, m11, m12, m13, m14, m15, m16,
        m17, m18⟩ := move_to_queue_spec now s2 idx hidx hwfs2 hs2posidx
      intro m hm
      by_cases hmi : m = idx
      · subst hmi
        rw [m1]
        simp [m14]
      · rw [m2 m hmi]
        rw [show (move_to_queue now s2 idx).heap.pos m ≠ -1 ↔ s2.heap.pos m ≠ -1 from
          not_congr (m17 m hmi)]
        exact hinv2 m hm hmi

theorem W1_inv : QueueInv W1 := by
  intro m hm
  constructor
  · intro hne
    exact absurd rfl hne
  · intro hst
    exfalso
    by_cases h1 : m = 1
    · rw [h1] at hst; exact absurd hst (by decide)
    · by_cases h2 : m = 2
      · rw [h2] at hst; exact absurd hst (by decide)
      · have hd : W1.customers m = (setup_shared_memory 100 500 1).customers m := by
          simp [W1, h1, h2]
        rw [hd] at hst
        have hz : (setup_shared_memory 100 500 1).customers m =
            (setup_shared_memory 100 500 1).customers 0 := rfl
        rw [hz] at hst
        exact absurd hst (by decide)

theorem W1_bound : ∀ u, u < W1.num_tools → (W1.tools u).current_user ≠ -1 →
    ∃ c : Nat, c < MAX_NODES ∧ (W1.tools u).current_user = (c : Int) ∧
      (W1.customers c).state = CustomerState.USING := by
  intro u hu hb
  have hu1 : u < 1 := hu
  have hu0 : u = 0 := by omega
  subst hu0
  exact ⟨1, by decide, by decide, by decide⟩

/-- **C3 witness.** On `W1` a request by the resting customer 2
preserves the queue-membership invariant. -/
theorem claim_C3_witness :
    ((W1.customers 2).state ≠ CustomerState.USING ∧ QueueInv W1) ∧
    QueueInv (handle_request 600 W1 2 300) :=
  ⟨⟨by decide, W1_inv⟩,
    (claim_C3 600 W1 2 300 (by decide) W1_heap_wf W1_inv (by decide) W1_nn
      W1_bound).1⟩

/-- A state for the test_extract variant: customer 1 is Waiting and sits
in the waiting queue (back-map position 0), but its customer-struct
`heap_index` field holds the stale value 1, outside the current heap of
size 1; tool 0 is free. -/
def CX : Sched :=
  { setup_shared_memory 100 500 1 with
    customers := fun x =>
      if x = 1 then
        { customer_id := 21, is_allocated := true, state := CustomerState.WAITING,
          share := 20, request_duration := 400, remaining_duration := 400,
          current_tool := -1, session_start := 0, wait_start := 0, heap_index := 1,
          event_pending := false, event_type := EventType.NONE, event_tool_id := 0 }
      else (setup_shared_memory 100 500 1).customers x
    waiting_count := 1
    total_customers := 1
    total_share := 20
    free_customer_count := 1023
    heap :=
      { key := fun x => if x = 1 then 20 else 0
        pos := fun x => if x = 1 then 0 else -1
        arr := fun i => if i = 0 then 1 else 0
        size := 1 } }

theorem CX_inv : QueueInv CX := by
  intro m hm
  by_cases h1 : m = 1
  · subst h1
    constructor
    · intro _; decide
    · intro _; decide
  · have hpos : CX.heap.pos m = -1 := by simp [CX, h1]
    have hst : CX.customers m = (setup_shared_memory 100 500 1).customers m := by
      simp [CX, h1]
    constructor
    · intro hne; exact absurd hpos hne
    · intro hw
      rw [hst] at hw
      have hz : (setup_shared_memory 100 500 1).customers m =
          (setup_shared_memory 100 500 1).customers 0 := rfl
      rw [hz] at hw
      exact absurd hw (by decide)

/-- **C3 counterexample.** On `CX` the test_extract `handle_request`
grants the free tool to the Waiting requester but, because its
`assign_tool_to_customer` consults the customer-struct `heap_index`
field instead of the heap's own back-map, leaves the now-Using customer
inside the waiting queue: the invariant does not survive this variant. -/
theorem claim_C3_counterexample :
    QueueInv CX ∧
    ((handle_request_te 50 CX 1 300).customers 1).state = CustomerState.USING ∧
    (handle_request_te 50 CX 1 300).heap.pos 1 ≠ -1 ∧
    ¬ QueueInv (handle_request_te 50 CX 1 300) := by
  refine ⟨CX_inv, by decide, by decide, ?_⟩
  intro hq
  have h1 := (hq 1 (by decide)).mp (by decide)
  exact absurd h1 (by decide)
